import Mathlib

/-!
Verification of `pyoculus/solvers/qfm.py` (QFM surface solver).

Shallow embedding: numpy float arrays are modelled as `List ℝ` (2D arrays as
`List (List ℝ)`), Python exceptions as an `Except PyErr` result, and the
external field model / root solver as function parameters.  All definitions
are transcribed from the source file; line references are given in the doc
comments.
-/

noncomputable section

open scoped BigOperators

/-- Python exception classes raised by `qfm.py`. -/
inductive PyErr where
  | valueError : String → PyErr
  | runtimeError : String → PyErr
  deriving DecidableEq, Repr

/-! ## Orbit DOF codec (`QFM._unpack_dof`, `QFM._pack_dof`, qfm.py lines 351-375) -/

/-- `QFM._unpack_dof` (qfm.py 351-363):
```
qN = (xx.size - 1) // 4
nv = xx[0] - 1
rcn = xx[1 : qN + 2] - 1
tsn = np.concatenate([[0], xx[qN + 2 : 2 * qN + 1] - 1, [0]])
rsn = np.concatenate([[0], xx[2 * qN + 1 : 3 * qN] - 1, [0]])
tcn = xx[3 * qN :] - 1
```
A Python slice `xx[a:b]` is `(xx.drop a).take (b - a)` (clamped, as for
`List.take`/`List.drop`). -/
def unpack_dof (xx : List ℝ) : ℝ × List ℝ × List ℝ × List ℝ × List ℝ :=
  let qN := (xx.length - 1) / 4
  let nv := xx.getD 0 0 - 1
  let rcn := ((xx.drop 1).take (qN + 2 - 1)).map (· - 1)
  let tsn := [(0 : ℝ)] ++ ((xx.drop (qN + 2)).take (2 * qN + 1 - (qN + 2))).map (· - 1) ++ [(0 : ℝ)]
  let rsn := [(0 : ℝ)] ++ ((xx.drop (2 * qN + 1)).take (3 * qN - (2 * qN + 1))).map (· - 1) ++ [(0 : ℝ)]
  let tcn := (xx.drop (3 * qN)).map (· - 1)
  (nv, rcn, tsn, rsn, tcn)

/-- `QFM._pack_dof` (qfm.py 365-375):
`xx = np.concatenate([[nv], rcn, tsn[1:-1], rsn[1:-1], tcn]) + 1`.
`tsn[1:-1]` is `(tsn.drop 1).dropLast`. -/
def pack_dof (nv : ℝ) (rcn tsn rsn tcn : List ℝ) : List ℝ :=
  ([nv] ++ rcn ++ (tsn.drop 1).dropLast ++ (rsn.drop 1).dropLast ++ tcn).map (· + 1)

/-! ## 1D spectral transforms (`rfft1D`, `irfft1D`, qfm.py lines 378-408)

`np.fft.rfft(f)` on a real vector of length `N` returns the `N/2 + 1`
complex coefficients `F_k = Σ_{m<N} f_m exp(-2πi k m / N)`.
`np.fft.irfft(a, n)` with even `n = 2N` returns the `n` real samples
`out_j = (1/n) Re(a_0 + (-1)^j a_N + 2 Σ_{k=1}^{N-1} a_k exp(2πi j k / n))`
(the imaginary parts of `a_0` and `a_N` are ignored by the C2R transform,
and `a` is truncated / zero-padded to `N + 1` entries). -/


/-- The complex exponential `exp(2πi j / N)` (the `j`-th power of the
primitive `N`-th root of unity used by the DFT). -/
def expu (N : ℕ) (j : ℤ) : ℂ := Complex.exp ((2 * Real.pi * j / N : ℝ) * Complex.I)

/-- The `k`-th DFT coefficient `F_k = Σ_{m<N} f_m exp(-2πi k m / N)` of a real
vector `f` (`N = f.length`). -/
def dftF (f : List ℝ) (k : ℕ) : ℂ :=
  ∑ m ∈ Finset.range f.length, (f.getD m 0 : ℂ) * expu f.length (-(k * m : ℕ))

/-- `np.fft.rfft(f)` for a 1D real input `f` of length `Nfft`: the first
`Nfft / 2 + 1` DFT coefficients. -/
def rfftC (f : List ℝ) : List ℂ :=
  (List.range (f.length / 2 + 1)).map (dftF f)

/-- `rfft1D` (qfm.py 378-391) on a 1D input:
```
Nfft = f.shape[-1]
ffft = np.fft.rfft(f)
cosout = np.real(ffft) / Nfft * 2 ;  cosout[..., 0] /= 2
sinout = -np.imag(ffft) / Nfft * 2 ;  sinout[..., 0] = 0
``` -/
def rfft1D (f : List ℝ) : List ℝ × List ℝ :=
  let Nfft := f.length
  let ffft := rfftC f
  (((ffft.map (fun z => z.re / (Nfft : ℝ) * 2)).modifyHead (· / 2)),
   ((ffft.map (fun z => -z.im / (Nfft : ℝ) * 2)).set 0 0))

/-- `rfft1D` on a batched (2D) input: every operation in the source acts
along the last axis (`[..., 0]`), so the transform maps over the rows. -/
def rfft1D2 (f : List (List ℝ)) : List (List ℝ) × List (List ℝ) :=
  (f.map (fun row => (rfft1D row).1), f.map (fun row => (rfft1D row).2))

/-- `np.fft.irfft(a, 2 * N)` (even output length, as used by `irfft1D`). -/
def irfftEven (a : List ℂ) (N : ℕ) : List ℝ :=
  (List.range (2 * N)).map (fun j =>
    1 / (2 * N : ℝ) * ((a.getD 0 0).re + (-1 : ℝ) ^ j * (a.getD N 0).re +
      2 * ∑ k ∈ Finset.Ico 1 N, ((a.getD k 0) * expu (2 * N) (j * k : ℕ)).re))

/-- The `sin_in_new` intermediate of `irfft1D` (qfm.py 402-404) for 1D input:
```
sin_in_new = sin_in.copy() ;  sin_in_new[0] = 0 ;  sin_in_new[-1] = 0
```
On a 1D array this nulls the first and last entries.  Note that the source
never reads `sin_in_new` again: the next line builds `ffft` from the original
`sin_in`. -/
def irfft1D_sin_new (sin_in : List ℝ) : List ℝ :=
  (sin_in.set 0 0).set (sin_in.length - 1) 0

/-- `irfft1D` (qfm.py 394-408) on 1D coefficient inputs:
```
Nfft = nfft_multiplier * (cos_in.shape[-1] - 1)
sin_in_new = sin_in.copy() ; sin_in_new[0] = 0 ; sin_in_new[-1] = 0
ffft = (cos_in - 1j * sin_in) * Nfft ;  ffft[..., 0] *= 2
result = np.fft.irfft(ffft, 2 * Nfft)
```
The `ffft` line uses the original `sin_in`, not `sin_in_new`: the nulled copy
is a dead store (see `irfft1D_sin_new`). -/
def irfft1D (cos_in sin_in : List ℝ) (nfft_multiplier : ℕ) : List ℝ :=
  let Nfft := nfft_multiplier * (cos_in.length - 1)
  let ffft := (List.zipWith (fun c s => (Complex.ofReal c - Complex.I * Complex.ofReal s) * (Nfft : ℂ))
    cos_in sin_in).modifyHead (· * 2)
  irfftEven ffft Nfft

/-- Replace a row by a same-length row of zeros (numpy `arr[i] = 0` on a 2D
array broadcasts the scalar over the whole row). -/
def zeroRow (row : List ℝ) : List ℝ := row.map (fun _ => 0)

/-- The `sin_in_new` intermediate of `irfft1D` for a batched (2D) input: the
source writes `sin_in_new[0] = 0` and `sin_in_new[-1] = 0` WITHOUT an
ellipsis, so on a 2D array it zeroes the first and the last row (axis 0),
not the first/last column of each row.  Like in the 1D case the copy is a
dead store: `ffft` is built from the original `sin_in`. -/
def irfft1D2_sin_new (sin_in : List (List ℝ)) : List (List ℝ) :=
  (sin_in.set 0 (zeroRow (sin_in.getD 0 []))).set (sin_in.length - 1)
    (zeroRow (sin_in.getD (sin_in.length - 1) []))

/-- `irfft1D` on batched (2D) coefficient inputs.  `sin_in_new` is again a
dead store, and every operation of the `ffft` construction and the inverse
transform acts along the last axis of `cos_in` and the original `sin_in`. -/
def irfft1D2 (cos_in sin_in : List (List ℝ)) (nfft_multiplier : ℕ) : List (List ℝ) :=
  let Nfft := nfft_multiplier * ((cos_in.getD 0 []).length - 1)
  List.zipWith (fun crow srow =>
    irfftEven ((List.zipWith (fun c s => (Complex.ofReal c - Complex.I * Complex.ofReal s) * (Nfft : ℂ))
      crow srow).modifyHead (· * 2)) Nfft) cos_in sin_in

/-! ## 2D spectral transforms (`rfft2D`, `irfft2D`, qfm.py lines 411-485)

`np.fft.rfft2(f, axes=[-1,-2])` performs the real transform along axis `-2`
(rows, length `Nfft1`, keeping `Nfft1/2 + 1` coefficients) and the full
complex transform along axis `-1` (columns, length `Nfft2`):
`G_{m,n} = Σ_{u<Nfft1} Σ_{v<Nfft2} f[u][v] e(-mu/Nfft1) e(-nv/Nfft2)`.
`np.fft.irfft2(A, axes=[-1,-2])` inverts the complex transform along the
last axis and then applies the C2R inverse along axis `-2` with default
output length `2 * (A.shape[-2] - 1)`.  A numpy column index `idx` may be
negative; it addresses column `idx mod Nfft2`.  Fancy assignment
`A[:, idxlist] = B` assigns sequentially, so for a duplicated index the last
occurrence wins. -/

/-- Entry `(m, n)` of `np.fft.rfft2(f, axes=[-1, -2])`. -/
def dft2F (f : List (List ℝ)) (m n : ℕ) : ℂ :=
  ∑ u ∈ Finset.range f.length, ∑ v ∈ Finset.range (f.getD 0 []).length,
    ((f.getD u []).getD v 0 : ℂ) * expu f.length (-(m * u : ℕ)) *
      expu (f.getD 0 []).length (-(n * v : ℕ))

/-- `idxlist = np.concatenate([[0], -np.arange(1, ntor + 1), np.arange(ntor, 0, -1)])`
(qfm.py lines 437 and 469). -/
def idxlist (ntor : ℕ) : List ℤ :=
  [0] ++ (List.range ntor).map (fun j : ℕ => -((j : ℤ) + 1)) ++
    (List.range ntor).map (fun j : ℕ => (ntor : ℤ) - (j : ℤ))

/-- Divide all entries of row `i` of a matrix by two (`A[i, :] /= 2`). -/
def halveRow (A : List (List ℝ)) (i : ℕ) : List (List ℝ) :=
  A.set i ((A.getD i []).map (· / 2))

/-- Double all entries of row `i` of a matrix (`A[i, :] *= 2`). -/
def doubleRow (A : List (List ℝ)) (i : ℕ) : List (List ℝ) :=
  A.set i ((A.getD i []).map (· * 2))

/-- The `fftcos` array of `rfft2D` after its two row scalings
(`fftcos = np.real(fftout)/Nfft1/Nfft2*2 ; fftcos[0,:] /= 2 ; fftcos[-1,:] /= 2`). -/
def fftcosMat (f : List (List ℝ)) : List (List ℝ) :=
  halveRow (halveRow ((List.range (f.length / 2 + 1)).map (fun m =>
    (List.range (f.getD 0 []).length).map (fun n =>
      (dft2F f m n).re / (f.length : ℝ) / ((f.getD 0 []).length : ℝ) * 2))) 0)
    (f.length / 2 + 1 - 1)

/-- The `fftsin` array of `rfft2D` after its two row scalings. -/
def fftsinMat (f : List (List ℝ)) : List (List ℝ) :=
  halveRow (halveRow ((List.range (f.length / 2 + 1)).map (fun m =>
    (List.range (f.getD 0 []).length).map (fun n =>
      -(dft2F f m n).im / (f.length : ℝ) / ((f.getD 0 []).length : ℝ) * 2))) 0)
    (f.length / 2 + 1 - 1)

/-- `rfft2D` (qfm.py 411-443) with explicit `mpol`, `ntor`:
```
fftout = np.fft.rfft2(f, axes=[-1, -2])
fftcos = np.real(fftout) / Nfft1 / Nfft2 * 2 ; fftcos[0, :] /= 2 ; fftcos[-1, :] /= 2
fftsin = -np.imag(fftout) / Nfft1 / Nfft2 * 2 ; fftsin[0, :] /= 2 ; fftsin[-1, :] /= 2
cn[0 : mpol + 1, :] = fftcos[0 : mpol + 1, idxlist]
sn[0 : mpol + 1, :] = fftsin[0 : mpol + 1, idxlist]
``` -/
def rfft2D (f : List (List ℝ)) (mpol ntor : ℕ) : (List (List ℝ)) × (List (List ℝ)) :=
  let Nfft2 := (f.getD 0 []).length
  let cn := (List.range (mpol + 1)).map (fun m =>
    (idxlist ntor).map (fun idx => ((fftcosMat f).getD m []).getD ((idx % (Nfft2 : ℤ)).toNat) 0))
  let sn := (List.range (mpol + 1)).map (fun m =>
    (idxlist ntor).map (fun idx => ((fftsinMat f).getD m []).getD ((idx % (Nfft2 : ℤ)).toNat) 0))
  (cn, sn)

/-- One row of the numpy fancy assignment `pad[r, idxlist] = src_r` into an
all-zero row of length `width`: the writes happen in list order, so for a
duplicated column the last write wins. -/
def assignRow (idxl : List ℤ) (src : List ℝ) (width : ℕ) : List ℝ :=
  (List.zip idxl src).foldl
    (fun row p => row.set ((p.1 % (width : ℤ)).toNat) p.2) (List.replicate width 0)

/-- `pad[0 : nsrc, idxlist] = src` into an all-zero `rows × width` matrix
(`nsrc = mpol + 1` at the call site). -/
def fancyAssign (ntor rows width nsrc : ℕ) (src : List (List ℝ)) : List (List ℝ) :=
  (List.range rows).map (fun r =>
    if r < nsrc then assignRow (idxlist ntor) (src.getD r []) width
    else List.replicate width 0)

/-- The inverse complex transform along the last axis (`np.fft.ifft`, axis -1),
length `nzeta`. -/
def ifftAxis1 (A : List (List ℂ)) (nzeta : ℕ) : List (List ℂ) :=
  A.map (fun row => (List.range nzeta).map (fun v =>
    (1 / (nzeta : ℂ)) * ∑ n ∈ Finset.range nzeta, row.getD n 0 * expu nzeta (n * v : ℕ)))

/-- Column `v` of a complex matrix. -/
def colList (A : List (List ℂ)) (v : ℕ) : List ℂ := A.map (fun row => row.getD v 0)

/-- `np.fft.irfft2(A, axes=[-1, -2])`: inverse complex FFT along the last
axis, then the C2R inverse along axis `-2` with (default) output length
`2 * (A.shape[-2] - 1)`. -/
def irfft2 (A : List (List ℂ)) (nzeta : ℕ) : List (List ℝ) :=
  let Nth := A.length - 1
  let H := ifftAxis1 A nzeta
  (List.range (2 * Nth)).map (fun u =>
    (List.range nzeta).map (fun v => (irfftEven (colList H v) Nth).getD u 0))

/-- `irfft2D` (qfm.py 446-485):
```
mpol = cn.shape[0] - 1 ; ntor = (cn.shape[1] - 1) // 2
mpol_new = nfft_theta // 2 ; ntor_new = nfft_zeta // 2
cn_pad = zeros([mpol_new + 1, 2 * ntor_new]) ; cn_pad[0 : mpol + 1, idxlist] = cn
sn_pad likewise
cn_pad[0, :] *= 2 ; cn_pad[-1, :] *= 2 ; sn_pad[0, :] *= 2 ; sn_pad[-1, :] *= 2
fout = np.fft.irfft2(cn_pad - 1j * sn_pad, axes=[-1, -2]) * nfft_theta * nfft_zeta / 2
``` -/
def irfft2D (cn sn : List (List ℝ)) (nfft_theta nfft_zeta : ℕ) : List (List ℝ) :=
  let mpol := cn.length - 1
  let ntor := ((cn.getD 0 []).length - 1) / 2
  let mpol_new := nfft_theta / 2
  let ntor_new := nfft_zeta / 2
  let cn_pad := fancyAssign ntor (mpol_new + 1) (2 * ntor_new) (mpol + 1) cn
  let sn_pad := fancyAssign ntor (mpol_new + 1) (2 * ntor_new) (mpol + 1) sn
  let cn_pad2 := doubleRow (doubleRow cn_pad 0) (mpol_new + 1 - 1)
  let sn_pad2 := doubleRow (doubleRow sn_pad 0) (mpol_new + 1 - 1)
  let cpx := List.zipWith (fun crow srow =>
    List.zipWith (fun c s => Complex.ofReal c - Complex.I * Complex.ofReal s) crow srow)
    cn_pad2 sn_pad2
  (irfft2 cpx nfft_zeta).map (fun row => row.map (fun x => x * nfft_theta * nfft_zeta / 2))

/-! ## Surface-fold cyclic shift (`QFM.action`, qfm.py lines 234-247) -/

/-- The cyclic-shift index used by the surface fold in `QFM.action`
(qfm.py line 235): `idx = np.mod(pp * i, qq)`. -/
def foldIdx (pp qq i : ℕ) : ℕ := (pp * i) % qq

/-- `foldIdx pp qq` restricted to `Fin qq` (the fold loop runs `i` over
`range(qq)` and writes row block `idx * fM : (idx+1) * fM`). -/
def foldIdxFin (pp : ℕ) {qq : ℕ} (hq : 0 < qq) (i : Fin qq) : Fin qq :=
  ⟨foldIdx pp qq i.val, Nat.mod_lt _ hq⟩


/-! ## The curve-solving loop of `QFM.action` (qfm.py lines 176-222) -/

/-- The initial degree-of-freedom guess of `QFM.action` for the first curve
(qfm.py 184-192): `nv0 = 0`, all spectra zero except `rcn0[0] = rguess`
(`tcn0[0] = 0` is already zero).  Stored in `unpack_dof` order
`(nv, rcn, tsn, rsn, tcn)`. -/
def initGuess (rguess : ℝ) (qN : ℕ) : ℝ × List ℝ × List ℝ × List ℝ × List ℝ :=
  (0, (List.replicate (qN + 1) 0).set 0 rguess, List.replicate (qN + 1) 0,
    List.replicate (qN + 1) 0, List.replicate (qN + 1) 0)

/-- The guess update of `QFM.action` for each later curve (qfm.py 194-200): the
previous curve's solution with `tcn0[0] += dt`. -/
def nextGuess (dt : ℝ) (prev : ℝ × List ℝ × List ℝ × List ℝ × List ℝ) :
    ℝ × List ℝ × List ℝ × List ℝ × List ℝ :=
  (prev.1, prev.2.1, prev.2.2.1, prev.2.2.2.1,
    (prev.2.2.2.2).set 0 ((prev.2.2.2.2).getD 0 0 + dt))

/-- The error raised by `QFM.action` when the root solver reports failure for
the curve with area target `a` (qfm.py 205-213):
`RuntimeError("QFM orbit for pp=" + str(pp) + ",qq=" + str(qq) + ",a=" + str(a)
+ " not found.")`.  `fmt` stands for Python's `str` on floats. -/
def qfmOrbitError (pp qq : ℤ) (fmt : ℝ → String) (a : ℝ) : PyErr :=
  PyErr.runtimeError ("QFM orbit for pp=" ++ toString pp ++ ",qq=" ++ toString qq ++
    ",a=" ++ fmt a ++ " not found.")

/-- The curve-solving loop of `QFM.action` (qfm.py 176-222), with the external
call `scipy.optimize.root(self.action_gradient, xx0, args=(pp, qq, a, mode),
method=method, tol=1e-8)` abstracted as `solver xx0 a = (success, sol_x)`.
The first result component records one `(xx0, a, tol)` triple per solver
invocation; the second is the loop outcome: `Except.ok` when every curve
converged, or the `RuntimeError` of qfm.py 205-213 at the first failing curve
(the loop is not resumed afterwards, so later curves get no record). -/
def actionSolveAux (solver : List ℝ → ℝ → Bool × List ℝ) (pp qq : ℤ)
    (fmt : ℝ → String) (dt : ℝ) :
    ℕ → ℕ → (ℝ × List ℝ × List ℝ × List ℝ × List ℝ) → List (List ℝ × ℝ × ℝ) →
      List (List ℝ × ℝ × ℝ) × Except PyErr Unit
  | 0, _, _, trace => (trace, Except.ok ())
  | rem + 1, jpq, prev, trace =>
    let a : ℝ := (jpq : ℝ) * dt
    let xx0 := pack_dof prev.1 prev.2.1 prev.2.2.1 prev.2.2.2.1 prev.2.2.2.2
    let res := solver xx0 a
    if res.1 then
      actionSolveAux solver pp qq fmt dt rem (jpq + 1) (nextGuess dt (unpack_dof res.2))
        (trace ++ [(xx0, a, 1e-8)])
    else
      (trace ++ [(xx0, a, 1e-8)], Except.error (qfmOrbitError pp qq fmt a))

/-- The full solve loop `for jpq in range(fM)` of `QFM.action`, started from
the `jpq == 0` guess. -/
def actionLoop (solver : List ℝ → ℝ → Bool × List ℝ) (pp qq : ℤ) (fmt : ℝ → String)
    (rguess dt : ℝ) (qN fM : ℕ) : List (List ℝ × ℝ × ℝ) × Except PyErr Unit :=
  actionSolveAux solver pp qq fmt dt fM 0 (initGuess rguess qN) []

/-! ## `QFM.action_gradient` (qfm.py lines 266-349) -/

/-- Elementwise subtraction (numpy `x - y` on same-length arrays). -/
def ewSub (x y : List ℝ) : List ℝ := List.zipWith (· - ·) x y

/-- Elementwise division (numpy `x / y`). -/
def ewDiv (x y : List ℝ) : List ℝ := List.zipWith (· / ·) x y

/-- Elementwise multiplication (numpy `x * y`). -/
def ewMul (x y : List ℝ) : List ℝ := List.zipWith (· * ·) x y

/-- `np.sum(w[:, nax] * M, axis=0)`: output column `j` is `Σ_n w[n] * M[n][j]`. -/
def sumAxis0 (w : List ℝ) (M : List (List ℝ)) : List ℝ :=
  (List.range ((M.getD 0 []).length)).map (fun j =>
    ((List.zip w M).map (fun p => p.1 * (p.2.getD j 0))).sum)

/-- `np.linspace(0, stop, num, endpoint=False)`: `num` samples `j * stop / num`. -/
def linspace0 (stop : ℝ) (num : ℕ) : List ℝ :=
  (List.range num).map (fun j => (j : ℝ) * (stop / (num : ℝ)))

/-- numpy slice assignment `dst[a:b] = src` (with the matching source length
the callers guarantee): positions `a ≤ i < b` (inside `dst`) receive
`src[i - a]`, everything else is unchanged; the length never changes. -/
def setSlice (dst : List ℝ) (a b : ℕ) (src : List ℝ) : List ℝ :=
  List.zipWith (fun i x => if a ≤ i ∧ i < b then src.getD (i - a) x else x)
    (List.range dst.length) dst

/-- The `mode == "fourier"` path of `QFM.action_gradient` (qfm.py 296-303,
314-346).  The instance state prepared by `action` is passed in: `nlist` is
`[0..qN]`, `zeta` the toroidal grid, `cnzq`/`snzq` the mode matrices
`cos(n z / q)` / `sin(n z / q)`; `B_many` is the problem field returning
`(B^rho, B^theta, B^zeta)` at each sample point. -/
def actionGradientFourier (B_many : List (ℝ × ℝ × ℝ) → List (ℝ × ℝ × ℝ))
    (nlist zeta : List ℝ) (cnzq snzq : List (List ℝ))
    (xx : List ℝ) (pp qq a : ℝ) : List ℝ :=
  let iota := pp / qq
  let qN := (xx.length - 1) / 4
  let u := unpack_dof xx
  let nv := u.1
  let rcn := u.2.1
  let tsn := u.2.2.1
  let rsn := u.2.2.2.1
  let tcn := u.2.2.2.2
  let r := List.zipWith (· + ·) (sumAxis0 rcn cnzq) (sumAxis0 rsn snzq)
  let t0 := List.zipWith (· + ·) (sumAxis0 tcn cnzq) (sumAxis0 tsn snzq)
  let z := zeta
  let t := List.zipWith (· + ·) t0 (z.map (fun w => iota * w))
  let area := tcn.getD 0 0
  let B := B_many (List.zipWith (fun x p => (x, p)) r (List.zipWith (fun y w => (y, w)) t z))
  let gBr := B.map (fun b => b.1)
  let gBt := B.map (fun b => b.2.1)
  let gBz := B.map (fun b => b.2.2)
  let rhs_tdot := ewDiv gBt gBz
  let rhs_rdot := ewSub (ewDiv gBr gBz) (gBz.map (fun w => nv / w))
  let ff0 := (List.replicate xx.length 0).set 0 (area - a)
  let tFFT := rfft1D rhs_tdot
  let rFFT := rfft1D rhs_rdot
  let ff1 := setSlice ff0 1 (qN + 2)
    (ewSub ((ewMul rsn nlist).map (fun w => w / qq)) (rFFT.1.take (qN + 1)))
  let ff2 := setSlice ff1 (qN + 2) (2 * qN + 1)
    (((ewSub ((ewMul rcn nlist).map (fun w => -w / qq))
      (rFFT.2.take (qN + 1))).drop 1).dropLast)
  let ff3 := setSlice ff2 (2 * qN + 1) (3 * qN + 2)
    (ewSub ((ewMul tsn nlist).map (fun w => w / qq)) (tFFT.1.take (qN + 1)))
  let ff4 := ff3.set (2 * qN + 1) (ff3.getD (2 * qN + 1) 0 + iota)
  let ff5 := setSlice ff4 (3 * qN + 2) xx.length
    (((ewSub ((ewMul tcn nlist).map (fun w => -w / qq))
      (tFFT.2.take (qN + 1))).drop 1).dropLast)
  ff5

/-- The `mode == "real"` path of `QFM.action_gradient` (qfm.py 304-310,
314-330, 347-349). -/
def actionGradientReal (B_many : List (ℝ × ℝ × ℝ) → List (ℝ × ℝ × ℝ))
    (nlist : List ℝ) (xx : List ℝ) (pp qq a : ℝ) : List ℝ :=
  let iota := pp / qq
  let qN := (xx.length - 1) / 4
  let u := unpack_dof xx
  let nv := u.1
  let rcn := u.2.1
  let tsn := u.2.2.1
  let rsn := u.2.2.2.1
  let tcn := u.2.2.2.2
  let r := irfft1D rcn rsn 1
  let z := linspace0 (2 * qq * Real.pi) r.length
  let t := List.zipWith (· + ·) (irfft1D tcn tsn 1) (z.map (fun w => iota * w))
  let rdot := irfft1D ((ewMul rsn nlist).map (fun w => w / qq))
    ((ewMul rcn nlist).map (fun w => -w / qq)) 1
  let tdot := (irfft1D ((ewMul tsn nlist).map (fun w => w / qq))
    ((ewMul tcn nlist).map (fun w => -w / qq)) 1).map (fun w => w + iota)
  let area := tcn.getD 0 0
  let B := B_many (List.zipWith (fun x p => (x, p)) r (List.zipWith (fun y w => (y, w)) t z))
  let gBr := B.map (fun b => b.1)
  let gBt := B.map (fun b => b.2.1)
  let gBz := B.map (fun b => b.2.2)
  let rhs_tdot := ewDiv gBt gBz
  let rhs_rdot := ewSub (ewDiv gBr gBz) (gBz.map (fun w => nv / w))
  let ff0 := (List.replicate xx.length 0).set 0 (area - a)
  let ff1 := setSlice ff0 1 (2 * qN + 1) (ewSub rdot rhs_rdot)
  let ff2 := setSlice ff1 (2 * qN + 1) xx.length (ewSub tdot rhs_tdot)
  ff2

/-- `QFM.action_gradient` (qfm.py 266-349): the mode dispatch.  Any mode other
than `"fourier"` and `"real"` raises
`ValueError("space should be \x27real\x27 or \x27fourier\x27 ")` (note the
trailing blank in the message); the recognized modes return the residual. -/
def action_gradient (B_many : List (ℝ × ℝ × ℝ) → List (ℝ × ℝ × ℝ))
    (nlist zeta : List ℝ) (cnzq snzq : List (List ℝ))
    (xx : List ℝ) (pp qq a : ℝ) (mode : String) : Except PyErr (List ℝ) :=
  if mode = "fourier" then
    Except.ok (actionGradientFourier B_many nlist zeta cnzq snzq xx pp qq a)
  else if mode = "real" then
    Except.ok (actionGradientReal B_many nlist xx pp qq a)
  else
    Except.error (PyErr.valueError "space should be \x27real\x27 or \x27fourier\x27 ")

/-! ## `QFM.straighten_boundary` (qfm.py lines 58-138) -/

/-- Row-major `np.reshape(v, [rows, cols])`. -/
def reshape2 (v : List ℝ) (rows cols : ℕ) : List (List ℝ) :=
  (List.range rows).map (fun u => (v.drop (u * cols)).take cols)

/-- `np.max(np.abs(A - B))` for same-shaped matrices (maximum absolute
entrywise difference; `np.max` of the nonnegative values, with 0 for the
degenerate empty case). -/
def matMaxAbsDiff (A B : List (List ℝ)) : ℝ :=
  (List.zipWith (fun ra rb => (List.zipWith (fun x y => |x - y|) ra rb).foldr max 0)
    A B).foldr max 0

/-- The toroidal mode-number list of `straighten_boundary` (qfm.py 98):
`np.concatenate([np.arange(0, ntor + 1), np.arange(-ntor, 0)]) * self.Nfp`. -/
def straightenNlist (ntor : ℕ) (Nfp : ℝ) : List ℝ :=
  ((List.range (ntor + 1)).map (fun j : ℕ => (j : ℝ)) ++
    (List.range ntor).map (fun j : ℕ => (j : ℝ) - (ntor : ℝ))).map (· * Nfp)

/-- The updated `lambda_cn` of one `straighten_boundary` round
(qfm.py 126-131): every entry is overwritten each round — rows `1:` over all
columns, row 0 over columns `1:`, and `lambda_cn[0,0] = 0` last — so the
result is the full `(mpol+1) × ntor2` matrix with entry `(m, j)` equal to
`sn[m][j] / (-m * iota + nlist[j])` away from `(0, 0)`. -/
def straightenNewCn (sn : List (List ℝ)) (nlist : List ℝ) (iota : ℝ)
    (mpol ntor2 : ℕ) : List (List ℝ) :=
  (List.range (mpol + 1)).map (fun m => (List.range ntor2).map (fun j =>
    if m = 0 ∧ j = 0 then 0
    else ((sn.getD m []).getD j 0) / (-(m : ℝ) * iota + nlist.getD j 0)))

/-- The updated `lambda_sn` of one round (qfm.py 127-131):
`cn[m][j] / (m * iota - nlist[j])`, with `lambda_sn[0,0] = 0`. -/
def straightenNewSn (cn : List (List ℝ)) (nlist : List ℝ) (iota : ℝ)
    (mpol ntor2 : ℕ) : List (List ℝ) :=
  (List.range (mpol + 1)).map (fun m => (List.range ntor2).map (fun j =>
    if m = 0 ∧ j = 0 then 0
    else ((cn.getD m []).getD j 0) / ((m : ℝ) * iota - nlist.getD j 0)))

/-- One round of the `straighten_boundary` fixed-point iteration
(qfm.py 104-131) on the state `(iota, lambda_cn, lambda_sn)`: evaluate
`lambda` on the grid, sample the field through `B_many`, transform
`Bt / Bz`, read the new `iota = cn[0, 0]` and rebuild both `lambda`
spectra (`B[:, 0]` is reshaped to `Bs` in the source but never used). -/
def straightenStep (B_many : List (ℝ × ℝ × ℝ) → List (ℝ × ℝ × ℝ))
    (MM : ℕ) (Nfp rho : ℝ) (mpol ntor : ℕ)
    (st : ℝ × List (List ℝ) × List (List ℝ)) : ℝ × List (List ℝ) × List (List ℝ) :=
  let nfft_theta := MM * mpol
  let nfft_zeta := MM * ntor
  let lambda_real := irfft2D st.2.1 st.2.2 nfft_theta nfft_zeta
  let thetas := linspace0 (Real.pi * 2) nfft_theta
  let zetas := linspace0 (Real.pi * 2) nfft_zeta
  let tarr := (List.range nfft_theta).map (fun u => (List.range nfft_zeta).map (fun v =>
    thetas.getD u 0 + (lambda_real.getD u []).getD v 0))
  let coords := (List.range (nfft_theta * nfft_zeta)).map (fun i =>
    (rho, (tarr.getD (i / nfft_zeta) []).getD (i % nfft_zeta) 0,
      zetas.getD (i % nfft_zeta) 0))
  let B := B_many coords
  let Bt := reshape2 (B.map (fun b => b.2.1)) nfft_theta nfft_zeta
  let Bz := reshape2 (B.map (fun b => b.2.2)) nfft_theta nfft_zeta
  let csn := rfft2D (List.zipWith ewDiv Bt Bz) mpol ntor
  let iota := (csn.1.getD 0 []).getD 0 0
  let nl := straightenNlist ntor Nfp
  (iota, straightenNewCn csn.2 nl iota mpol (2 * ntor + 1),
    straightenNewSn csn.1 nl iota mpol (2 * ntor + 1))

/-- The convergence measure of one round (qfm.py 133-136):
`np.max([erriota, errcn, errsn])` between the freshly computed state and the
previous one. -/
def straightenConvErr (step : (ℝ × List (List ℝ) × List (List ℝ)) →
      ℝ × List (List ℝ) × List (List ℝ))
    (st : ℝ × List (List ℝ) × List (List ℝ)) : ℝ :=
  let stNew := step st
  max |stNew.1 - st.1| (max (matMaxAbsDiff stNew.2.1 st.2.1)
    (matMaxAbsDiff stNew.2.2 st.2.2))

/-- The `for i in range(niter)` loop of `straighten_boundary`
(qfm.py 99-136): run one round, then `break` — returning the state just
computed — as soon as the round-to-round changes all fall below `tol`;
otherwise continue with the remaining budget.  No failure path exists. -/
def straightenLoop (step : (ℝ × List (List ℝ) × List (List ℝ)) →
      ℝ × List (List ℝ) × List (List ℝ)) (tol : ℝ) :
    ℕ → (ℝ × List (List ℝ) × List (List ℝ)) → ℝ × List (List ℝ) × List (List ℝ)
  | 0, st => st
  | n + 1, st =>
    if straightenConvErr step st < tol then step st
    else straightenLoop step tol n (step st)

/-- `QFM.straighten_boundary` (qfm.py 58-138).  Note qfm.py 80-81:
`mpol = self._pqMpol` is immediately shadowed by `ntor = mpol = self._pqNtor`,
so the poloidal truncation also comes from `pqNtor` and `pqMpol` is unused.
The source returns `iota, lambda_sn, lambda_cn` (sine first). -/
def straighten_boundary (B_many : List (ℝ × ℝ × ℝ) → List (ℝ × ℝ × ℝ))
    (MM : ℕ) (Nfp : ℝ) (pqMpol pqNtor : ℕ) (rho tol : ℝ) (niter : ℕ) :
    ℝ × List (List ℝ) × List (List ℝ) :=
  let mpol := pqMpol
  let mpol := pqNtor
  let ntor := pqNtor
  let res := straightenLoop (straightenStep B_many MM Nfp rho mpol ntor) tol niter
    (0, List.replicate (mpol + 1) (List.replicate (2 * ntor + 1) 0),
      List.replicate (mpol + 1) (List.replicate (2 * ntor + 1) 0))
  (res.1, res.2.2, res.2.1)

end

section C1Lemmas

lemma length_pack_dof (nv : ℝ) (rcn tsn rsn tcn : List ℝ) :
    (pack_dof nv rcn tsn rsn tcn).length =
      1 + rcn.length + (tsn.length - 1 - 1) + (rsn.length - 1 - 1) + tcn.length := by
  simp [pack_dof]
  omega

lemma map_sub_add_one (l : List ℝ) : (l.map (· + 1)).map (· - 1) = l := by
  rw [List.map_map]
  have : ((fun x : ℝ => x - 1) ∘ fun x : ℝ => x + 1) = id := by
    funext x; simp
  rw [this, List.map_id]

lemma map_add_sub_one (l : List ℝ) : (l.map (· - 1)).map (· + 1) = l := by
  rw [List.map_map]
  have : ((fun x : ℝ => x + 1) ∘ fun x : ℝ => x - 1) = id := by
    funext x; simp
  rw [this, List.map_id]

/-- A list of length `≥ 2` with zero head and zero last element decomposes as
`0 :: mid ++ [0]`. -/
lemma eq_zero_cons_append (l : List ℝ) (hlen : 2 ≤ l.length)
    (h0 : l.getD 0 0 = 0) (hl : l.getLast? = some 0) :
    l = [(0 : ℝ)] ++ (l.drop 1).dropLast ++ [(0 : ℝ)] := by
  match l, hlen with
  | a :: b :: rest, _ =>
    simp only [List.getD_cons_zero] at h0
    subst h0
    have hne : (b :: rest) ≠ [] := by simp
    have hlast : (b :: rest).getLast hne = 0 := by
      rw [List.getLast?_cons_cons] at hl
      have := List.getLast?_eq_getLast (b :: rest) hne
      rw [this] at hl
      simpa using hl
    have hdec := List.dropLast_append_getLast hne
    rw [hlast] at hdec
    simp only [List.cons_append, List.nil_append, List.drop_one, List.tail_cons]
    rw [hdec]

lemma unpack_pack_aux (qN : ℕ) (nv : ℝ) (rcn midt midr tcn : List ℝ)
    (hqN : 1 ≤ qN) (hrcn : rcn.length = qN + 1) (hmidt : midt.length = qN - 1)
    (hmidr : midr.length = qN - 1) (htcn : tcn.length = qN + 1) :
    unpack_dof (([nv] ++ rcn ++ midt ++ midr ++ tcn).map (· + 1)) =
      (nv, rcn, [(0 : ℝ)] ++ midt ++ [(0 : ℝ)], [(0 : ℝ)] ++ midr ++ [(0 : ℝ)], tcn) := by
  set L := [nv] ++ rcn ++ midt ++ midr ++ tcn with hL
  have hlenL : L.length = 4 * qN + 1 := by
    simp [hL, hrcn, hmidt, hmidr, htcn]; omega
  have hlen : (L.map (· + 1)).length = 4 * qN + 1 := by simpa using hlenL
  have hq : ((L.map (· + 1)).length - 1) / 4 = qN := by rw [hlen]; omega
  have hmap : L.map (· + 1) = (nv + 1) ::
      (rcn.map (· + 1) ++ (midt.map (· + 1) ++ (midr.map (· + 1) ++ tcn.map (· + 1)))) := by
    simp [hL]
  have d1 : (L.map (· + 1)).drop 1 =
      rcn.map (· + 1) ++ (midt.map (· + 1) ++ (midr.map (· + 1) ++ tcn.map (· + 1))) := by
    rw [hmap]; rfl
  have d2 : (L.map (· + 1)).drop (qN + 2) =
      midt.map (· + 1) ++ (midr.map (· + 1) ++ tcn.map (· + 1)) := by
    have : qN + 2 = 1 + (qN + 1) := by omega
    rw [this, ← List.drop_drop, d1, List.drop_left' (by simp [hrcn])]
  have d3 : (L.map (· + 1)).drop (2 * qN + 1) =
      midr.map (· + 1) ++ tcn.map (· + 1) := by
    have : 2 * qN + 1 = (qN + 2) + (qN - 1) := by omega
    rw [this, ← List.drop_drop, d2, List.drop_left' (by simp [hmidt])]
  have d4 : (L.map (· + 1)).drop (3 * qN) = tcn.map (· + 1) := by
    have : 3 * qN = (2 * qN + 1) + (qN - 1) := by omega
    rw [this, ← List.drop_drop, d3, List.drop_left' (by simp [hmidr])]
  simp only [unpack_dof, hq, Prod.mk.injEq]
  refine ⟨?_, ?_, ?_, ?_, ?_⟩
  · -- nv component
    rw [hmap]; simp
  · -- rcn component
    have h2 : qN + 2 - 1 = qN + 1 := by omega
    rw [d1, h2, List.take_left' (by simp [hrcn]), map_sub_add_one]
  · -- tsn component
    have h2 : 2 * qN + 1 - (qN + 2) = qN - 1 := by omega
    rw [d2, h2, List.take_left' (by simp [hmidt]), map_sub_add_one]
  · -- rsn component
    have h2 : 3 * qN - (2 * qN + 1) = qN - 1 := by omega
    rw [d3, h2, List.take_left' (by simp [hmidr]), map_sub_add_one]
  · -- tcn component
    rw [d4, map_sub_add_one]

lemma getD_zero_eq_take_one (v : List ℝ) (h : v ≠ []) : [v.getD 0 0] = v.take 1 := by
  cases v with
  | nil => exact absurd rfl h
  | cons a l => simp

end C1Lemmas

section FFT1DStructure

lemma length_irfftEven (a : List ℂ) (N : ℕ) : (irfftEven a N).length = 2 * N := by
  simp [irfftEven]

lemma length_irfft1D (cos_in sin_in : List ℝ) (m : ℕ) :
    (irfft1D cos_in sin_in m).length = 2 * (m * (cos_in.length - 1)) := by
  simp [irfft1D, length_irfftEven]

lemma getD_zero_set_zero (l : List ℝ) : (l.set 0 0).getD 0 0 = 0 := by
  cases l <;> simp

lemma getD_range_map {β : Type} (g : ℕ → β) (n r : ℕ) (hr : r < n) (d : β) :
    ((List.range n).map g).getD r d = g r := by
  rw [List.getD_eq_getElem?_getD, List.getElem?_map, List.getElem?_range hr]
  rfl

/-- The C2R inverse `np.fft.irfft` reads only the real part of the entries at
index 0 and (implicitly, through truncation) ignores nothing else: two
coefficient lists agreeing except possibly in the imaginary part of entry 0
produce the same output. -/
lemma irfftEven_congr (a b : List ℂ) (N : ℕ)
    (h0 : (a.getD 0 0).re = (b.getD 0 0).re)
    (hk : ∀ k, 1 ≤ k → a.getD k 0 = b.getD k 0) :
    irfftEven a N = irfftEven b N := by
  unfold irfftEven
  apply List.map_congr_left
  intro j hj
  rw [List.mem_range] at hj
  have hNpos : 0 < N := by omega
  have hsum : ∑ k ∈ Finset.Ico 1 N, ((a.getD k 0) * expu (2 * N) (j * k : ℕ)).re
      = ∑ k ∈ Finset.Ico 1 N, ((b.getD k 0) * expu (2 * N) (j * k : ℕ)).re := by
    apply Finset.sum_congr rfl
    intro k hkm
    rw [Finset.mem_Ico] at hkm
    rw [hk k hkm.1]
  rw [h0, hk N (by omega), hsum]

end FFT1DStructure

/-- C2 counterexample: for `cos = sin = [0,0,0]` and `multiplier = 1`,
`irfft1D` returns `2 * 1 * (3 - 1) = 4` output points, not
`1 * (3 - 1) = 2` as the claim states (the source calls
`np.fft.irfft(ffft, 2 * Nfft)`, doubling the count). -/
theorem irfft1D_output_count_counterexample :
    (irfft1D [0, 0, 0] [0, 0, 0] 1).length = 4 ∧
    (irfft1D [0, 0, 0] [0, 0, 0] 1).length ≠ 1 * ([(0 : ℝ), 0, 0].length - 1) := by
  constructor
  · rw [length_irfft1D]; rfl
  · rw [length_irfft1D]; simp

/-- C2 (amended): for every cosine/sine coefficient pair and every
multiplier, `irfft1D` returns a real-space array with exactly
`2 * multiplier * (len(cos) - 1)` output points along the transformed
axis (`np.fft.irfft(ffft, 2 * Nfft)` with `Nfft = multiplier * (len(cos)-1)`
produces `2 * Nfft` samples). -/
theorem irfft1D_output_count (cos_in sin_in : List ℝ) (nfft_multiplier : ℕ) :
    (irfft1D cos_in sin_in nfft_multiplier).length =
      2 * (nfft_multiplier * (cos_in.length - 1)) :=
  length_irfft1D cos_in sin_in nfft_multiplier

/-- C3: nulling of sine coefficients.  (a) `rfft1D` always returns
`sin[0] = 0` (1D input), and (b) also on batched input every row of the
returned sine array has a zero entry at index 0 along the last axis.
(c) `irfft1D` is insensitive to the sine coefficient at index 0 (the C2R
transform reads only the real part of spectrum entry 0), matching the
index-0 half of the claim.  (d) BUT the nulled copy `sin_in_new` is a dead
store: `ffft` is built from the original `sin_in`, so the sine coefficient
at the LAST index is not nulled before transforming, and for
`nfft_multiplier > 1` (as used by `QFM.action` with `MM // 2`) it changes
the output: with `cos = [0,0,0]`, `sin = [0,0,1]`, `multiplier = 2` the
nulled spectrum gives output 0 at sample 1, but `irfft1D` returns 1. -/
theorem fft_sine_nulling_dead_store :
    (∀ f : List ℝ, (rfft1D f).2.getD 0 0 = 0) ∧
    (∀ (f : List (List ℝ)) (i : ℕ), ((rfft1D2 f).2.getD i []).getD 0 0 = 0) ∧
    (∀ (cos_in sin_in : List ℝ) (m : ℕ) (x : ℝ),
      irfft1D cos_in (sin_in.set 0 x) m = irfft1D cos_in sin_in m) ∧
    (irfft1D [0, 0, 0] (irfft1D_sin_new [0, 0, 1]) 2).getD 1 0 = 0 ∧
    (irfft1D [0, 0, 0] [0, 0, 1] 2).getD 1 0 = 1 := by
  refine ⟨?_, ?_, ?_, ?_, ?_⟩
  · intro f
    exact getD_zero_set_zero _
  · intro f i
    rcases Nat.lt_or_ge i f.length with h | h
    · have hrow : (rfft1D2 f).2.getD i [] = (rfft1D (f.get ⟨i, h⟩)).2 := by
        simp [rfft1D2, List.getD_eq_getElem?_getD, List.getElem?_eq_getElem h]
      rw [hrow]
      exact getD_zero_set_zero _
    · have hnone : (f.map (fun row => (rfft1D row).2))[i]? = none :=
        List.getElem?_eq_none (by simpa using h)
      simp [rfft1D2, List.getD_eq_getElem?_getD, hnone]
  · intro cos_in sin_in m x
    cases cos_in with
    | nil => rfl
    | cons c cs =>
      cases sin_in with
      | nil => rfl
      | cons s0 ss =>
        simp only [irfft1D, List.set_cons_zero]
        apply irfftEven_congr
        · simp only [List.zipWith_cons_cons, List.modifyHead_cons, List.getD_cons_zero]
          simp [Complex.mul_re, Complex.sub_re, Complex.sub_im, Complex.mul_im]
        · intro k hk
          match k with
          | 0 => omega
          | k + 1 =>
            simp only [List.zipWith_cons_cons, List.modifyHead_cons, List.getD_cons_succ]
  · have hnew : irfft1D_sin_new [(0 : ℝ), 0, 1] = [(0 : ℝ), 0, 0] := rfl
    rw [hnew]
    simp only [irfft1D]
    have hlen : ([(0 : ℝ), 0, 0]).length - 1 = 2 := rfl
    rw [hlen]
    have hzip : (List.zipWith (fun c s =>
        (Complex.ofReal c - Complex.I * Complex.ofReal s) * ((2 * 2 : ℕ) : ℂ))
        [(0 : ℝ), 0, 0] [(0 : ℝ), 0, 0]).modifyHead (· * 2) = [0, 0, 0] := by
      simp
    rw [hzip, irfftEven, getD_range_map _ _ _ (by norm_num) _]
    have hsum : ∑ k ∈ Finset.Ico 1 (2 * 2),
        ((([(0 : ℂ), 0, 0]).getD k 0) * expu (2 * (2 * 2)) (1 * k : ℕ)).re = 0 := by
      apply Finset.sum_eq_zero
      intro k hkm
      rw [Finset.mem_Ico] at hkm
      obtain ⟨hk1, hk2⟩ := hkm
      have hk4 : k < 4 := by omega
      interval_cases k <;> simp
    rw [hsum]
    norm_num
  · simp only [irfft1D]
    have hlen : ([(0 : ℝ), 0, 0]).length - 1 = 2 := rfl
    rw [hlen]
    have hexp : expu (2 * (2 * 2)) ((1 * 2 : ℕ) : ℤ) = Complex.I := by
      unfold expu
      have harg : (2 * Real.pi * (((1 * 2 : ℕ) : ℤ) : ℝ) / ((2 * (2 * 2) : ℕ) : ℝ)) =
          Real.pi / 2 := by
        push_cast
        ring
      rw [harg, Complex.exp_mul_I, ← Complex.ofReal_cos, ← Complex.ofReal_sin,
        Real.cos_pi_div_two, Real.sin_pi_div_two]
      simp
    have hzip : (List.zipWith (fun c s =>
        (Complex.ofReal c - Complex.I * Complex.ofReal s) * ((2 * 2 : ℕ) : ℂ))
        [(0 : ℝ), 0, 0] [(0 : ℝ), 0, 1]).modifyHead (· * 2) =
        [0, 0, Complex.I * (-4)] := by
      simp only [List.zipWith_cons_cons, List.zipWith_nil, List.modifyHead_cons]
      norm_num
    rw [hzip, irfftEven, getD_range_map _ _ _ (by norm_num) _]
    have hIco : Finset.Ico 1 (2 * 2) = {1, 2, 3} := by decide
    have h42 : Complex.I * (-4) * Complex.I = 4 := by
      have hI : Complex.I * Complex.I = -1 := Complex.I_mul_I
      calc Complex.I * (-4) * Complex.I = Complex.I * Complex.I * (-4) := by ring
        _ = 4 := by rw [hI]; norm_num
    have hsum : ∑ k ∈ Finset.Ico 1 (2 * 2),
        ((([(0 : ℂ), 0, Complex.I * (-4)]).getD k 0) *
          expu (2 * (2 * 2)) (1 * k : ℕ)).re = 4 := by
      rw [hIco, Finset.sum_insert (by decide), Finset.sum_insert (by decide),
        Finset.sum_singleton]
      have hg1 : ([(0 : ℂ), 0, Complex.I * (-4)]).getD 1 0 = 0 := rfl
      have hg2 : ([(0 : ℂ), 0, Complex.I * (-4)]).getD 2 0 = Complex.I * (-4) := rfl
      have hg3 : ([(0 : ℂ), 0, Complex.I * (-4)]).getD 3 0 = 0 := rfl
      rw [hg1, hg2, hg3, hexp, h42]
      simp
    rw [hsum]
    have hg0 : ([(0 : ℂ), 0, Complex.I * (-4)]).getD 0 0 = 0 := rfl
    have hg4 : ([(0 : ℂ), 0, Complex.I * (-4)]).getD (2 * 2) 0 = 0 := rfl
    rw [hg0, hg4]
    norm_num

/-- C1: the DOF codec is an exact two-sided inverse pair.  (a) For every valid
tuple `(nv, rcn, tsn, rsn, tcn)` — all four coefficient arrays of length
`qN + 1` with `qN = qq * pqNtor ≥ 1`, and `tsn`, `rsn` having zero first and
last entries — `_unpack_dof (_pack_dof x) = x` exactly.  (b) For every flat
vector `v` of length `4 * qN + 1`, `_pack_dof` applied to the components of
`_unpack_dof v` returns `v` exactly: the `+1` offset of pack and the `-1`
offset of unpack cancel. -/
theorem dof_codec_exact_inverse_pair :
    (∀ (qN : ℕ) (nv : ℝ) (rcn tsn rsn tcn : List ℝ),
      1 ≤ qN → rcn.length = qN + 1 → tsn.length = qN + 1 → rsn.length = qN + 1 →
      tcn.length = qN + 1 → tsn.getD 0 0 = 0 → tsn.getLast? = some 0 →
      rsn.getD 0 0 = 0 → rsn.getLast? = some 0 →
      unpack_dof (pack_dof nv rcn tsn rsn tcn) = (nv, rcn, tsn, rsn, tcn)) ∧
    (∀ (qN : ℕ) (v : List ℝ), 1 ≤ qN → v.length = 4 * qN + 1 →
      pack_dof (unpack_dof v).1 (unpack_dof v).2.1 (unpack_dof v).2.2.1
        (unpack_dof v).2.2.2.1 (unpack_dof v).2.2.2.2 = v) := by
  constructor
  · intro qN nv rcn tsn rsn tcn hqN hrcn htsn hrsn htcn ht0 htl hr0 hrl
    have htsn' := eq_zero_cons_append tsn (by omega) ht0 htl
    have hrsn' := eq_zero_cons_append rsn (by omega) hr0 hrl
    have hmidt : ((tsn.drop 1).dropLast).length = qN - 1 := by
      simp [htsn]
    have hmidr : ((rsn.drop 1).dropLast).length = qN - 1 := by
      simp [hrsn]
    rw [pack_dof, unpack_pack_aux qN nv rcn _ _ tcn hqN hrcn hmidt hmidr htcn]
    rw [← htsn', ← hrsn']
  · intro qN v hqN hlen
    have hq : (v.length - 1) / 4 = qN := by omega
    simp only [unpack_dof, hq, pack_dof]
    simp only [List.cons_append, List.nil_append, List.drop_succ_cons, List.drop_zero,
      List.dropLast_concat]
    rw [List.map_cons, List.map_append, List.map_append, List.map_append,
      map_add_sub_one, map_add_sub_one, map_add_sub_one, map_add_sub_one]
    have hne : v ≠ [] := by intro h; rw [h] at hlen; simp at hlen
    have hv0 : v.getD 0 0 - 1 + 1 = v.getD 0 0 := by ring
    rw [hv0, ← List.singleton_append, getD_zero_eq_take_one v hne]
    have e1 : qN + 2 - 1 = qN + 1 := by omega
    have e2 : 2 * qN + 1 - (qN + 2) = qN - 1 := by omega
    have e3 : 3 * qN - (2 * qN + 1) = qN - 1 := by omega
    rw [e1, e2, e3]
    have s1 : v.take 1 ++ (v.drop 1).take (qN + 1) = v.take (qN + 2) := by
      rw [← List.take_add]; congr 1; omega
    have s2 : v.take (qN + 2) ++ (v.drop (qN + 2)).take (qN - 1) = v.take (2 * qN + 1) := by
      rw [← List.take_add]; congr 1; omega
    have s3 : v.take (2 * qN + 1) ++ (v.drop (2 * qN + 1)).take (qN - 1) = v.take (3 * qN) := by
      rw [← List.take_add]; congr 1; omega
    simp only [← List.append_assoc]
    rw [s1, s2, s3, List.take_append_drop]

section C5Lemmas

lemma foldIdxFin_injective_of_coprime (pp qq : ℕ) (hq : 0 < qq)
    (hco : Nat.gcd pp qq = 1) : Function.Injective (foldIdxFin pp hq) := by
  intro i j hij
  have h : (pp * i.val) % qq = (pp * j.val) % qq := congrArg Fin.val hij
  have hmod : pp * i.val ≡ pp * j.val [MOD qq] := h
  have hco' : Nat.gcd qq pp = 1 := by rwa [Nat.gcd_comm]
  have := Nat.ModEq.cancel_left_of_coprime hco' hmod
  have hi := i.isLt
  have hj := j.isLt
  apply Fin.ext
  calc i.val = i.val % qq := (Nat.mod_eq_of_lt hi).symm
    _ = j.val % qq := this
    _ = j.val := Nat.mod_eq_of_lt hj

lemma foldIdx_gcd_dvd (pp qq i : ℕ) (hq : 0 < qq) :
    Nat.gcd pp qq ∣ foldIdx pp qq i := by
  have h1 : Nat.gcd pp qq ∣ pp * i := Dvd.dvd.mul_right (Nat.gcd_dvd_left pp qq) i
  have h2 : Nat.gcd pp qq ∣ qq := Nat.gcd_dvd_right pp qq
  have h3 : Nat.gcd pp qq ∣ qq * (pp * i / qq) := Dvd.dvd.mul_right h2 _
  have h4 : Nat.gcd pp qq ∣ pp * i - qq * (pp * i / qq) := Nat.dvd_sub' h1 h3
  have h5 : pp * i - qq * (pp * i / qq) = (pp * i) % qq := by
    have := Nat.div_add_mod (pp * i) qq
    omega
  unfold foldIdx
  rw [← h5]
  exact h4

end C5Lemmas

/-- C5: the cyclic-shift index map `i ↦ (pp*i) mod qq` used by the surface
fold in `QFM.action` is a bijection on `{0, …, qq-1}` iff `gcd(pp, qq) = 1`;
consequently, for coprime `pp, qq` every shift index in `0..qq-1` is used by
exactly one loop iteration `i`, so every row block of the folded arrays is
written exactly once. -/
theorem fold_shift_bijective_iff_coprime (pp qq : ℕ) (hpp : 0 < pp) (hq : 0 < qq) :
    (Function.Bijective (foldIdxFin pp hq) ↔ Nat.gcd pp qq = 1) ∧
    (Nat.gcd pp qq = 1 →
      ∀ k, k < qq → ∃! i, i < qq ∧ foldIdx pp qq i = k) := by
  have main : Function.Bijective (foldIdxFin pp hq) ↔ Nat.gcd pp qq = 1 := by
    constructor
    · intro hbij
      rcases Nat.lt_or_eq_of_le hq with h1 | h1
      case inr => -- qq = 1
        rw [← h1]; exact Nat.gcd_one_right pp
      case inl => -- qq ≥ 2 : surjectivity onto 1 forces gcd ∣ 1
        obtain ⟨i, hi⟩ := hbij.2 ⟨1, h1⟩
        have hval : foldIdx pp qq i.val = 1 := congrArg Fin.val hi
        have hdvd := foldIdx_gcd_dvd pp qq i.val hq
        rw [hval] at hdvd
        exact Nat.eq_one_of_dvd_one hdvd
    · intro hco
      exact (Finite.injective_iff_bijective).mp (foldIdxFin_injective_of_coprime pp qq hq hco)
  refine ⟨main, fun hco k hk => ?_⟩
  have hbij := main.mpr hco
  obtain ⟨i, hi⟩ := hbij.2 ⟨k, hk⟩
  refine ⟨i.val, ⟨i.isLt, congrArg Fin.val hi⟩, ?_⟩
  intro j ⟨hj, hjk⟩
  have : foldIdxFin pp hq ⟨j, hj⟩ = foldIdxFin pp hq i := by
    apply Fin.ext
    simp only [foldIdxFin, hjk]
    exact (congrArg Fin.val hi).symm
  have := hbij.1 this
  exact congrArg Fin.val this

/-- C5 witness: the bijection criterion applied at the concrete coprime pair
`(pp, qq) = (3, 4)` and evaluated for shift index `1`. -/
theorem fold_shift_bijective_iff_coprime_witness :
    Function.Bijective (foldIdxFin 3 (show 0 < 4 by decide)) ∧
    ∃! i, i < 4 ∧ foldIdx 3 4 i = 1 := by
  have h := fold_shift_bijective_iff_coprime 3 4 (by decide) (by decide)
  exact ⟨h.1.mpr (by decide), h.2 (by decide) 1 (by decide)⟩

/-- C1 witness: the round-trip theorem applied at a concrete valid tuple
(`qN = 1`) and a concrete flat vector of length `5`. -/
theorem dof_codec_exact_inverse_pair_witness :
    unpack_dof (pack_dof (7 : ℝ) [2, 3] [0, 0] [0, 0] [4, 5]) =
      ((7 : ℝ), [2, 3], [0, 0], [0, 0], [4, 5]) ∧
    pack_dof (unpack_dof [1, 2, 3, 4, 5]).1 (unpack_dof [1, 2, 3, 4, 5]).2.1
      (unpack_dof [1, 2, 3, 4, 5]).2.2.1 (unpack_dof [1, 2, 3, 4, 5]).2.2.2.1
      (unpack_dof [(1 : ℝ), 2, 3, 4, 5]).2.2.2.2 = [1, 2, 3, 4, 5] := by
  constructor
  · exact dof_codec_exact_inverse_pair.1 1 7 [2, 3] [0, 0] [0, 0] [4, 5]
      (by norm_num) (by norm_num) (by norm_num) (by norm_num) (by norm_num)
      (by norm_num) (by norm_num) (by norm_num) (by norm_num)
  · exact dof_codec_exact_inverse_pair.2 1 [1, 2, 3, 4, 5] (by norm_num) (by norm_num)

section DFTLemmas

lemma expu_zero (N : ℕ) : expu N 0 = 1 := by
  simp [expu]

lemma expu_add (N : ℕ) (a b : ℤ) : expu N (a + b) = expu N a * expu N b := by
  rw [expu, expu, expu, ← Complex.exp_add]
  congr 1
  push_cast
  ring

lemma conj_expu (N : ℕ) (a : ℤ) : (starRingEnd ℂ) (expu N a) = expu N (-a) := by
  rw [expu, expu, ← Complex.exp_conj]
  congr 1
  rw [map_mul, Complex.conj_I, Complex.conj_ofReal]
  push_cast
  ring

lemma expu_mul_int (N : ℕ) (t : ℤ) (hN : 0 < N) : expu N ((N : ℤ) * t) = 1 := by
  rw [expu]
  have hN0 : N ≠ 0 := by omega
  have hNc : (N : ℂ) ≠ 0 := Nat.cast_ne_zero.mpr hN0
  have h1 : ((2 * Real.pi * ((N : ℤ) * t : ℤ) / N : ℝ) : ℂ) * Complex.I =
      (t : ℂ) * (2 * (Real.pi : ℂ) * Complex.I) := by
    push_cast
    field_simp
    ring
  rw [h1]
  exact_mod_cast Complex.exp_int_mul_two_pi_mul_I t

lemma expu_pow (N : ℕ) (d : ℤ) (k : ℕ) : expu N (d * k) = expu N d ^ k := by
  induction k with
  | zero => simp [expu_zero]
  | succ n ih =>
    have h1 : d * ((n + 1 : ℕ) : ℤ) = d * (n : ℤ) + d := by push_cast; ring
    rw [h1, expu_add, ih, pow_succ]

lemma expu_ne_one (N : ℕ) (hN : 0 < N) (d : ℤ) (hd : ¬ (N : ℤ) ∣ d) : expu N d ≠ 1 := by
  intro hcontra
  rw [expu, Complex.exp_eq_one_iff] at hcontra
  obtain ⟨n, hn⟩ := hcontra
  apply hd
  have him := congrArg Complex.im hn
  have hN0 : N ≠ 0 := by omega
  have hNr : (N : ℝ) ≠ 0 := Nat.cast_ne_zero.mpr hN0
  simp [Complex.mul_im, Complex.ofReal_re, Complex.ofReal_im] at him
  have hπ : Real.pi ≠ 0 := Real.pi_ne_zero
  have hdn : (d : ℝ) = (N : ℝ) * n := by
    field_simp at him
    have h4 : Real.pi * ((d : ℝ)) = Real.pi * ((N : ℝ) * n) := by ring_nf; ring_nf at him; linarith
    exact mul_left_cancel₀ hπ h4
  exact ⟨n, by exact_mod_cast hdn⟩

lemma sum_expu_orthogonal (M : ℕ) (hM : 0 < M) (d : ℤ) :
    ∑ k ∈ Finset.range M, expu M (d * k) = if (M : ℤ) ∣ d then (M : ℂ) else 0 := by
  by_cases h : (M : ℤ) ∣ d
  · obtain ⟨t, ht⟩ := h
    have h1 : expu M d = 1 := by rw [ht]; exact expu_mul_int M t hM
    have : ∀ k ∈ Finset.range M, expu M (d * k) = 1 := by
      intro k _
      rw [expu_pow, h1, one_pow]
    rw [Finset.sum_congr rfl this, if_pos ⟨t, ht⟩]
    simp
  · have hne := expu_ne_one M hM d h
    rw [if_neg h]
    have hsum : ∑ k ∈ Finset.range M, expu M (d * k) =
        ∑ k ∈ Finset.range M, expu M d ^ k := by
      exact Finset.sum_congr rfl fun k _ => expu_pow M d k
    rw [hsum, geom_sum_eq hne M]
    have hMone : expu M d ^ M = 1 := by
      rw [← expu_pow]
      rw [mul_comm]
      exact expu_mul_int M d hM
    rw [hMone]
    simp

end DFTLemmas

section DFTInversion

/-- Discrete Fourier inversion: summing the DFT coefficients of `f` against
the forward kernel recovers `M * f_j`. -/
lemma sum_dft_expu (f : List ℝ) (M : ℕ) (hM : 0 < M) (hf : f.length = M)
    (j : ℕ) (hj : j < M) :
    ∑ k ∈ Finset.range M, dftF f k * expu M (j * k : ℕ) = (M : ℂ) * (f.getD j 0 : ℂ) := by
  unfold dftF
  rw [hf]
  have step1 : ∀ k ∈ Finset.range M,
      (∑ m ∈ Finset.range M, (f.getD m 0 : ℂ) * expu M (-(k * m : ℕ))) * expu M (j * k : ℕ) =
      ∑ m ∈ Finset.range M, (f.getD m 0 : ℂ) * expu M (((j : ℤ) - m) * k) := by
    intro k _
    rw [Finset.sum_mul]
    apply Finset.sum_congr rfl
    intro m _
    rw [mul_assoc, ← expu_add]
    congr 2
    push_cast
    ring
  rw [Finset.sum_congr rfl step1, Finset.sum_comm]
  have step2 : ∀ m ∈ Finset.range M,
      (∑ k ∈ Finset.range M, (f.getD m 0 : ℂ) * expu M (((j : ℤ) - m) * k)) =
      (f.getD m 0 : ℂ) * (if ((M : ℤ) ∣ ((j : ℤ) - m)) then (M : ℂ) else 0) := by
    intro m _
    rw [← Finset.mul_sum, sum_expu_orthogonal M hM ((j : ℤ) - m)]
  rw [Finset.sum_congr rfl step2]
  have step3 : ∀ m ∈ Finset.range M,
      (f.getD m 0 : ℂ) * (if ((M : ℤ) ∣ ((j : ℤ) - m)) then (M : ℂ) else 0) =
      if m = j then (f.getD m 0 : ℂ) * M else 0 := by
    intro m hm
    rw [Finset.mem_range] at hm
    by_cases hmj : m = j
    · subst hmj
      simp
    · have hdvd : ¬ ((M : ℤ) ∣ ((j : ℤ) - m)) := by
        intro hcontra
        have hne : (j : ℤ) - m ≠ 0 := by
          intro h0
          apply hmj
          omega
        have habs : |(j : ℤ) - m| < M := by
          rw [abs_lt]
          omega
        have := Int.eq_zero_of_abs_lt_dvd hcontra habs
        exact hne this
      rw [if_neg hdvd, if_neg hmj, mul_zero]
  rw [Finset.sum_congr rfl step3, Finset.sum_ite_eq' (Finset.range M) j (fun m => (f.getD m 0 : ℂ) * M)]
  rw [if_pos (Finset.mem_range.mpr hj)]
  ring

/-- Hermitian symmetry of the DFT of a real vector: `F_{M-k} = conj F_k`. -/
lemma dftF_conj (f : List ℝ) (M : ℕ) (hM : 0 < M) (hf : f.length = M) (k : ℕ) (hk : k ≤ M) :
    dftF f (M - k) = (starRingEnd ℂ) (dftF f k) := by
  unfold dftF
  rw [hf, map_sum]
  apply Finset.sum_congr rfl
  intro m _
  rw [map_mul, Complex.conj_ofReal, conj_expu]
  congr 1
  have harg : (-(-((k * m : ℕ) : ℤ))) = ((k * m : ℕ) : ℤ) := by ring
  rw [harg]
  have split : (-(((M - k) * m : ℕ)) : ℤ) = ((k * m : ℕ) : ℤ) + (M : ℤ) * (-(m : ℤ)) := by
    push_cast [Nat.cast_sub hk]
    ring
  rw [split, expu_add, expu_mul_int M (-(m : ℤ)) hM, mul_one]

/-- `exp(2πi (jN) / (2N)) = (-1)^j`. -/
lemma expu_half_turn (N : ℕ) (hN : 0 < N) (j : ℕ) :
    expu (2 * N) (j * N : ℕ) = ((-1 : ℝ) ^ j : ℝ) := by
  have hN0 : (N : ℝ) ≠ 0 := Nat.cast_ne_zero.mpr (by omega)
  have hNc : (N : ℂ) ≠ 0 := Nat.cast_ne_zero.mpr (by omega)
  have h1 : ((2 * Real.pi * ((j * N : ℕ) : ℤ) / ((2 * N : ℕ) : ℝ) : ℝ) : ℂ) * Complex.I =
      (j : ℂ) * ((Real.pi : ℂ) * Complex.I) := by
    push_cast
    field_simp
    ring
  rw [expu, h1, Complex.exp_nat_mul, Complex.exp_pi_mul_I]
  push_cast
  ring

end DFTInversion

section REPairing

/-- The real part of the full inverse-DFT sum of a real vector of length `2N`
collapses to the `2N`-point real ("C2R") combination of the first `N + 1`
coefficients: `Re S_j = Re F_0 + (-1)^j Re F_N + 2 Σ_{k=1}^{N-1} Re(F_k e^{2πi jk/(2N)})`. -/
lemma re_sum_pairing (f : List ℝ) (N : ℕ) (hN : 0 < N) (hf : f.length = 2 * N) (j : ℕ) :
    (∑ k ∈ Finset.range (2 * N), dftF f k * expu (2 * N) (j * k : ℕ)).re =
      (dftF f 0).re + (-1 : ℝ) ^ j * (dftF f N).re +
        2 * ∑ k ∈ Finset.Ico 1 N, (dftF f k * expu (2 * N) (j * k : ℕ)).re := by
  set M := 2 * N with hM
  set g : ℕ → ℝ := fun k => (dftF f k * expu M (j * k : ℕ)).re with hg
  have hre : (∑ k ∈ Finset.range M, dftF f k * expu M (j * k : ℕ)).re =
      ∑ k ∈ Finset.range M, g k := Complex.re_sum _ _
  rw [hre]
  have hsplit1 : ∑ k ∈ Finset.Ico 0 M, g k = ∑ k ∈ Finset.Ico 0 1, g k + ∑ k ∈ Finset.Ico 1 M, g k :=
    (Finset.sum_Ico_consecutive g (by omega) (by omega)).symm
  have hsplit2 : ∑ k ∈ Finset.Ico 1 M, g k = ∑ k ∈ Finset.Ico 1 N, g k + ∑ k ∈ Finset.Ico N M, g k :=
    (Finset.sum_Ico_consecutive g (by omega) (by omega)).symm
  have hsplit3 : ∑ k ∈ Finset.Ico N M, g k =
      ∑ k ∈ Finset.Ico N (N + 1), g k + ∑ k ∈ Finset.Ico (N + 1) M, g k :=
    (Finset.sum_Ico_consecutive g (by omega) (by omega)).symm
  have hpair : ∑ k ∈ Finset.Ico (N + 1) M, g k = ∑ k ∈ Finset.Ico 1 N, g k := by
    apply Finset.sum_nbij' (fun k => M - k) (fun k => M - k)
    · intro a ha
      rw [Finset.mem_Ico] at ha ⊢
      omega
    · intro a ha
      rw [Finset.mem_Ico] at ha ⊢
      omega
    · intro a ha
      rw [Finset.mem_Ico] at ha
      omega
    · intro a ha
      rw [Finset.mem_Ico] at ha
      omega
    · intro k hk
      rw [Finset.mem_Ico] at hk
      have hkM : k ≤ M := by omega
      have hconj : dftF f (M - k) * expu M ((j * (M - k) : ℕ)) =
          (starRingEnd ℂ) (dftF f k * expu M (j * k : ℕ)) := by
        rw [map_mul, ← dftF_conj f M (by omega) hf k hkM]
        congr 1
        rw [conj_expu]
        have harg : ((j * (M - k) : ℕ) : ℤ) = -((j * k : ℕ) : ℤ) + (M : ℤ) * j := by
          push_cast [Nat.cast_sub hkM]
          ring
        rw [harg, expu_add, expu_mul_int M j (by omega), mul_one]
      show g k = g (M - k)
      simp only [hg]
      rw [hconj, Complex.conj_re]
  have hg0 : ∑ k ∈ Finset.Ico 0 1, g k = (dftF f 0).re := by
    have h1 : Finset.Ico 0 1 = {0} := rfl
    rw [h1, Finset.sum_singleton]
    simp only [hg, Nat.mul_zero, Nat.cast_zero]
    rw [expu_zero, mul_one]
  have hgN : ∑ k ∈ Finset.Ico N (N + 1), g k = (-1 : ℝ) ^ j * (dftF f N).re := by
    rw [Nat.Ico_succ_singleton, Finset.sum_singleton]
    simp only [hg]
    rw [hM, expu_half_turn N hN j]
    rw [Complex.mul_re, Complex.ofReal_re, Complex.ofReal_im, mul_zero, sub_zero]
    ring
  calc ∑ k ∈ Finset.range M, g k
      = ∑ k ∈ Finset.Ico 0 M, g k := by rw [Nat.Ico_zero_eq_range]
    _ = (dftF f 0).re + (∑ k ∈ Finset.Ico 1 N, g k +
          ((-1 : ℝ) ^ j * (dftF f N).re + ∑ k ∈ Finset.Ico 1 N, g k)) := by
        rw [hsplit1, hsplit2, hsplit3, hpair, hg0, hgN]
    _ = (dftF f 0).re + (-1 : ℝ) ^ j * (dftF f N).re +
          2 * ∑ k ∈ Finset.Ico 1 N, g k := by ring

end REPairing

section Roundtrip1D

lemma getD_of_getElem_some {α : Type} {l : List α} {k : ℕ} {a d : α}
    (h : l[k]? = some a) : l.getD k d = a := by
  rw [List.getD_eq_getElem?_getD, h]
  rfl

lemma rfftC_getElem (f : List ℝ) (k : ℕ) (hk : k < f.length / 2 + 1) :
    (rfftC f)[k]? = some (dftF f k) := by
  rw [rfftC, List.getElem?_map, List.getElem?_range hk]
  rfl

/-- 1D round trip: `irfft1D` applied to the output of `rfft1D` recovers any
even-length real vector `f` exactly. -/
lemma rfft1D_irfft1D_roundtrip (f : List ℝ) (N : ℕ) (hN : 0 < N)
    (hf : f.length = 2 * N) :
    irfft1D (rfft1D f).1 (rfft1D f).2 1 = f := by
  have hNc : (N : ℂ) ≠ 0 := Nat.cast_ne_zero.mpr (by omega)
  have hNr : (N : ℝ) ≠ 0 := Nat.cast_ne_zero.mpr (by omega)
  have h2 : f.length / 2 = N := by omega
  have hrlen : (rfftC f).length = N + 1 := by simp [rfftC, h2]
  set co := (rfft1D f).1 with hco
  set si := (rfft1D f).2 with hsi
  have hcolen : co.length = N + 1 := by
    simp [hco, rfft1D, hrlen]
  have hsilen : si.length = N + 1 := by
    simp [hsi, rfft1D, hrlen]
  have hco0 : co[0]? = some ((dftF f 0).re / (f.length : ℝ) * 2 / 2) := by
    rw [hco]
    simp only [rfft1D]
    rw [List.getElem?_modifyHead_zero, List.getElem?_map, rfftC_getElem f 0 (by omega)]
    rfl
  have hcok : ∀ k, 1 ≤ k → k ≤ N → co[k]? = some ((dftF f k).re / (f.length : ℝ) * 2) := by
    intro k h1 h2'
    obtain ⟨n, rfl⟩ : ∃ n, k = n + 1 := ⟨k - 1, by omega⟩
    rw [hco]
    simp only [rfft1D]
    rw [List.getElem?_modifyHead_succ, List.getElem?_map, rfftC_getElem f (n + 1) (by omega)]
    rfl
  have hsn0 : si[0]? = some 0 := by
    rw [hsi]
    simp only [rfft1D]
    rw [List.getElem?_set_self (by simp [hrlen, h2])]
  have hsnN : si[N]? = some (-(dftF f N).im / (f.length : ℝ) * 2) := by
    rw [hsi]
    simp only [rfft1D]
    rw [List.getElem?_set_ne (by omega : 0 ≠ N), List.getElem?_map,
      rfftC_getElem f N (by omega)]
    rfl
  have hsnk : ∀ k, 1 ≤ k → k < N →
      si[k]? = some (-(dftF f k).im / (f.length : ℝ) * 2) := by
    intro k h1 h2'
    rw [hsi]
    simp only [rfft1D]
    rw [List.getElem?_set_ne (by omega : 0 ≠ k), List.getElem?_map,
      rfftC_getElem f k (by omega)]
    rfl
  -- unfold `irfft1D`
  simp only [irfft1D]
  have hNf : 1 * (co.length - 1) = N := by rw [hcolen]; omega
  rw [hNf]
  set a := (List.zipWith
      (fun c s => (Complex.ofReal c - Complex.I * Complex.ofReal s) * ((N : ℕ) : ℂ))
      co si).modifyHead (· * 2) with ha
  -- entries of `a`
  have ha0 : a[0]? = some ((Complex.ofReal ((dftF f 0).re / (f.length : ℝ) * 2 / 2) -
      Complex.I * Complex.ofReal 0) * ((N : ℕ) : ℂ) * 2) := by
    rw [ha, List.getElem?_modifyHead_zero, List.getElem?_zipWith', hco0, hsn0]
    rfl
  have haN : a[N]? = some ((Complex.ofReal ((dftF f N).re / (f.length : ℝ) * 2) -
      Complex.I * Complex.ofReal (-(dftF f N).im / (f.length : ℝ) * 2)) * ((N : ℕ) : ℂ)) := by
    obtain ⟨n, hn⟩ : ∃ n, N = n + 1 := ⟨N - 1, by omega⟩
    rw [ha]
    rw [hn, List.getElem?_modifyHead_succ, List.getElem?_zipWith', ← hn,
      hcok N (by omega) le_rfl, hsnN]
    rfl
  have hak : ∀ k ∈ Finset.Ico 1 N, a[k]? =
      some ((Complex.ofReal ((dftF f k).re / (f.length : ℝ) * 2) -
        Complex.I * Complex.ofReal (-(dftF f k).im / (f.length : ℝ) * 2)) * ((N : ℕ) : ℂ)) := by
    intro k hk
    rw [Finset.mem_Ico] at hk
    obtain ⟨n, hn⟩ : ∃ n, k = n + 1 := ⟨k - 1, by omega⟩
    rw [ha]
    rw [hn, List.getElem?_modifyHead_succ, List.getElem?_zipWith', ← hn,
      hcok k hk.1 (by omega), hsnk k hk.1 hk.2]
    rfl
  -- complex values of the entries
  have hv0 : (Complex.ofReal ((dftF f 0).re / (f.length : ℝ) * 2 / 2) -
      Complex.I * Complex.ofReal 0) * ((N : ℕ) : ℂ) * 2 =
      Complex.ofReal ((dftF f 0).re) := by
    rw [hf]
    push_cast
    field_simp
    ring
  have hvN : (((Complex.ofReal ((dftF f N).re / (f.length : ℝ) * 2) -
      Complex.I * Complex.ofReal (-(dftF f N).im / (f.length : ℝ) * 2)) *
        ((N : ℕ) : ℂ))).re = (dftF f N).re := by
    simp only [Complex.mul_re, Complex.sub_re, Complex.sub_im, Complex.mul_im,
      Complex.ofReal_re, Complex.ofReal_im, Complex.I_re, Complex.I_im,
      Complex.natCast_re, Complex.natCast_im]
    rw [hf]
    push_cast
    field_simp
    ring
  have hvk : ∀ k ∈ Finset.Ico 1 N,
      (Complex.ofReal ((dftF f k).re / (f.length : ℝ) * 2) -
        Complex.I * Complex.ofReal (-(dftF f k).im / (f.length : ℝ) * 2)) * ((N : ℕ) : ℂ) =
      dftF f k := by
    intro k _
    rw [hf]
    have hsplit : (Complex.ofReal ((dftF f k).re / ((2 * N : ℕ) : ℝ) * 2) -
        Complex.I * Complex.ofReal (-(dftF f k).im / ((2 * N : ℕ) : ℝ) * 2)) * ((N : ℕ) : ℂ) =
        Complex.ofReal ((dftF f k).re) + Complex.ofReal ((dftF f k).im) * Complex.I := by
      push_cast
      field_simp
      conv_rhs => rw [← Complex.re_add_im (dftF f k)]
      ring
    rw [hsplit, Complex.re_add_im]
  -- pointwise equality
  apply List.ext_getElem
  · rw [length_irfftEven, hf]
  · intro j hj1 hj2
    have hj : j < 2 * N := by rw [length_irfftEven] at hj1; omega
    simp only [irfftEven, List.getElem_map, List.getElem_range]
    rw [getD_of_getElem_some ha0, getD_of_getElem_some haN, hv0,
      Complex.ofReal_re, hvN]
    have hsum : ∑ k ∈ Finset.Ico 1 N, ((a.getD k 0) * expu (2 * N) (j * k : ℕ)).re =
        ∑ k ∈ Finset.Ico 1 N, (dftF f k * expu (2 * N) (j * k : ℕ)).re := by
      apply Finset.sum_congr rfl
      intro k hk
      rw [getD_of_getElem_some (hak k hk), hvk k hk]
    rw [hsum, ← re_sum_pairing f N hN hf j,
      sum_dft_expu f (2 * N) (by omega) hf j hj]
    have hre : (((2 * N : ℕ) : ℂ) * ((f.getD j 0 : ℝ) : ℂ)).re = (2 * N : ℝ) * f.getD j 0 := by
      rw [← Complex.ofReal_natCast, ← Complex.ofReal_mul, Complex.ofReal_re]
      push_cast
      ring
    rw [hre]
    have hgd : f.getD j 0 = f[j] := by
      rw [List.getD_eq_getElem?_getD, List.getElem?_eq_getElem hj2]
      rfl
    rw [hgd]
    field_simp

end Roundtrip1D

section DFT2Support

/-- Complex discrete Fourier inversion (generic coefficient sequence). -/
lemma sum_dftc_expu (g : ℕ → ℂ) (M : ℕ) (hM : 0 < M) (v : ℕ) (hv : v < M) :
    ∑ n ∈ Finset.range M,
      (∑ w ∈ Finset.range M, g w * expu M (-(n * w : ℕ))) * expu M (n * v : ℕ) =
      (M : ℂ) * g v := by
  have step1 : ∀ n ∈ Finset.range M,
      (∑ w ∈ Finset.range M, g w * expu M (-(n * w : ℕ))) * expu M (n * v : ℕ) =
      ∑ w ∈ Finset.range M, g w * expu M (((v : ℤ) - w) * n) := by
    intro n _
    rw [Finset.sum_mul]
    apply Finset.sum_congr rfl
    intro w _
    rw [mul_assoc, ← expu_add]
    congr 2
    push_cast
    ring
  rw [Finset.sum_congr rfl step1, Finset.sum_comm]
  have step2 : ∀ w ∈ Finset.range M,
      (∑ n ∈ Finset.range M, g w * expu M (((v : ℤ) - w) * n)) =
      g w * (if ((M : ℤ) ∣ ((v : ℤ) - w)) then (M : ℂ) else 0) := by
    intro w _
    rw [← Finset.mul_sum, sum_expu_orthogonal M hM ((v : ℤ) - w)]
  rw [Finset.sum_congr rfl step2]
  have step3 : ∀ w ∈ Finset.range M,
      g w * (if ((M : ℤ) ∣ ((v : ℤ) - w)) then (M : ℂ) else 0) =
      if w = v then g w * M else 0 := by
    intro w hw
    rw [Finset.mem_range] at hw
    by_cases hwv : w = v
    · subst hwv
      simp
    · have hdvd : ¬ ((M : ℤ) ∣ ((v : ℤ) - w)) := by
        intro hcontra
        have hne : (v : ℤ) - w ≠ 0 := by
          intro h0
          apply hwv
          omega
        have habs : |(v : ℤ) - w| < M := by
          rw [abs_lt]
          omega
        exact hne (Int.eq_zero_of_abs_lt_dvd hcontra habs)
      rw [if_neg hdvd, if_neg hwv, mul_zero]
  rw [Finset.sum_congr rfl step3,
    Finset.sum_ite_eq' (Finset.range M) v (fun w => g w * M), if_pos (Finset.mem_range.mpr hv)]
  ring

lemma foldl_set_length (K : ℤ → ℕ) (φ : ℕ → ℝ) (l : List ℤ) (init : List ℝ) :
    (l.foldl (fun row idx => row.set (K idx) (φ (K idx))) init).length = init.length := by
  induction l generalizing init with
  | nil => rfl
  | cons q rest ih =>
    rw [List.foldl_cons, ih, List.length_set]

lemma foldl_set_getD_of_not_mem (K : ℤ → ℕ) (φ : ℕ → ℝ) (l : List ℤ) (init : List ℝ)
    (c : ℕ) (hall : ∀ idx ∈ l, K idx ≠ c) :
    (l.foldl (fun row idx => row.set (K idx) (φ (K idx))) init).getD c 0 = init.getD c 0 := by
  induction l generalizing init with
  | nil => rfl
  | cons q rest ih =>
    rw [List.foldl_cons, ih _ (fun idx hi => hall idx (List.mem_cons_of_mem q hi))]
    rw [List.getD_eq_getElem?_getD,
      List.getElem?_set_ne (hall q (List.mem_cons_self q rest)),
      ← List.getD_eq_getElem?_getD]

lemma foldl_set_getD_of_mem (K : ℤ → ℕ) (φ : ℕ → ℝ) (l : List ℤ) (init : List ℝ)
    (c : ℕ) (hc : c < init.length) (hmem : ∃ idx ∈ l, K idx = c) :
    (l.foldl (fun row idx => row.set (K idx) (φ (K idx))) init).getD c 0 = φ c := by
  induction l generalizing init with
  | nil =>
    obtain ⟨idx, hi, _⟩ := hmem
    exact absurd hi (List.not_mem_nil idx)
  | cons q rest ih =>
    rw [List.foldl_cons]
    by_cases hrest : ∃ idx ∈ rest, K idx = c
    · exact ih _ (by rw [List.length_set]; exact hc) hrest
    · have hq : K q = c := by
        obtain ⟨x, hx, hk⟩ := hmem
        rcases List.mem_cons.mp hx with hxq | hxr
        · rw [← hxq]; exact hk
        · exact absurd ⟨x, hxr, hk⟩ hrest
      rw [foldl_set_getD_of_not_mem K φ rest _ c
        (fun idx hi hk => hrest ⟨idx, hi, hk⟩)]
      rw [hq]
      exact getD_of_getElem_some (List.getElem?_set_self hc)

lemma emod_toNat_cast (w c : ℕ) (h : c < w) : (((c : ℕ) : ℤ) % (w : ℤ)).toNat = c := by
  rw [Int.emod_eq_of_lt (by positivity) (by exact_mod_cast h)]
  simp

lemma emod_toNat_neg (w p : ℕ) (h1 : 1 ≤ p) (h2 : p ≤ w) :
    ((-(p : ℤ)) % (w : ℤ)).toNat = w - p := by
  have h3 : (-(p : ℤ)) % w = ((w : ℤ) - p) % w := by
    conv_lhs => rw [show (-(p : ℤ)) = ((w : ℤ) - p) + (w : ℤ) * (-1) by ring]
    simp
  rw [h3, Int.emod_eq_of_lt (by omega) (by omega)]
  omega

/-- Coverage of `idxlist`: every column `c < 2 * ntor` is addressed by some
index in `idxlist ntor` (modulo `2 * ntor`). -/
lemma idxlist_covers (ntor : ℕ) (hn : 0 < ntor) (c : ℕ) (hc : c < 2 * ntor) :
    ∃ idx ∈ idxlist ntor, ((idx % ((2 * ntor : ℕ) : ℤ)).toNat) = c := by
  rcases Nat.lt_or_ge c 1 with h0 | h1
  · refine ⟨0, by simp [idxlist], ?_⟩
    have : c = 0 := by omega
    simp [this]
  · rcases Nat.lt_or_ge ntor c with hgt | hle
    · -- ntor < c < 2 * ntor : use the negative index -(2 * ntor - c)
      refine ⟨-((2 * ntor - c : ℕ) : ℤ), ?_, ?_⟩
      · have hA : -((2 * ntor - c : ℕ) : ℤ) ∈
            (List.range ntor).map (fun j : ℕ => -((j : ℤ) + 1)) := by
          rw [List.mem_map]
          exact ⟨2 * ntor - c - 1, List.mem_range.mpr (by omega), by omega⟩
        rw [idxlist]
        exact List.mem_append_left _ (List.mem_append_right _ hA)
      · rw [emod_toNat_neg (2 * ntor) (2 * ntor - c) (by omega) (by omega)]
        omega
    · -- 1 ≤ c ≤ ntor : use the positive index c
      refine ⟨((c : ℕ) : ℤ), ?_, ?_⟩
      · have hB : ((c : ℕ) : ℤ) ∈ (List.range ntor).map (fun j : ℕ => (ntor : ℤ) - (j : ℤ)) := by
          rw [List.mem_map]
          exact ⟨ntor - c, List.mem_range.mpr (by omega), by omega⟩
        rw [idxlist]
        exact List.mem_append_right _ hB
      · exact emod_toNat_cast (2 * ntor) c hc

/-- Gather–scatter cancellation: assigning the gathered row back through
`idxlist` restores every entry of the original row. -/
lemma assignRow_gather (frow : List ℝ) (ntor : ℕ) (hn : 0 < ntor) (c : ℕ)
    (hc : c < 2 * ntor) :
    (assignRow (idxlist ntor)
      ((idxlist ntor).map (fun idx => frow.getD ((idx % ((2 * ntor : ℕ) : ℤ)).toNat) 0))
      (2 * ntor)).getD c 0 = frow.getD c 0 := by
  rw [assignRow]
  have hzip : List.zip (idxlist ntor)
      ((idxlist ntor).map (fun idx => frow.getD ((idx % ((2 * ntor : ℕ) : ℤ)).toNat) 0)) =
      (idxlist ntor).map
        (fun idx => (idx, frow.getD ((idx % ((2 * ntor : ℕ) : ℤ)).toNat) 0)) := by
    simpa using List.zip_map' id
      (fun idx => frow.getD ((idx % ((2 * ntor : ℕ) : ℤ)).toNat) 0) (idxlist ntor)
  rw [hzip, List.foldl_map]
  exact foldl_set_getD_of_mem (fun idx => (idx % ((2 * ntor : ℕ) : ℤ)).toNat)
    (fun c => frow.getD c 0) (idxlist ntor) (List.replicate (2 * ntor) 0) c
    (by rw [List.length_replicate]; exact hc) (idxlist_covers ntor hn c hc)

end DFT2Support

section Matrix2DEntries

lemma getD_map_lt {α β : Type} (g : α → β) (l : List α) (n : ℕ) (hn : n < l.length)
    (d : β) (d' : α) : (l.map g).getD n d = g (l.getD n d') := by
  rw [List.getD_eq_getElem?_getD, List.getElem?_map, List.getElem?_eq_getElem hn,
    List.getD_eq_getElem?_getD, List.getElem?_eq_getElem hn]
  rfl

lemma rowOp_getD_ne (A : List (List ℝ)) (i r : ℕ) (row : List ℝ) (hr : i ≠ r) :
    (A.set i row).getD r [] = A.getD r [] := by
  rw [List.getD_eq_getElem?_getD, List.getElem?_set_ne hr, ← List.getD_eq_getElem?_getD]

lemma rowOp_getD_self (A : List (List ℝ)) (i : ℕ) (row : List ℝ) (hi : i < A.length) :
    (A.set i row).getD i [] = row :=
  getD_of_getElem_some (List.getElem?_set_self hi)

/-- Entry `(m, n)` of the halved cosine array of `rfft2D`, for a matrix of
`2 * N1` rows and `N2` columns. -/
lemma fftcosMat_entry (f : List (List ℝ)) (N1 N2 : ℕ) (hN1 : 0 < N1)
    (h1 : f.length = 2 * N1) (h2 : (f.getD 0 []).length = N2)
    (m n : ℕ) (hm : m ≤ N1) (hn : n < N2) :
    ((fftcosMat f).getD m []).getD n 0 =
      (dft2F f m n).re / (2 * N1 : ℝ) / (N2 : ℝ) * 2 / (if m = 0 ∨ m = N1 then 2 else 1) := by
  have hhalf : f.length / 2 = N1 := by omega
  have hlast : f.length / 2 + 1 - 1 = N1 := by omega
  rw [fftcosMat, hlast, hhalf]
  set M0 := (List.range (N1 + 1)).map (fun m =>
    (List.range (f.getD 0 []).length).map (fun n =>
      (dft2F f m n).re / (f.length : ℝ) / ((f.getD 0 []).length : ℝ) * 2)) with hM0
  have hM0len : M0.length = N1 + 1 := by simp [hM0]
  have hM0row : ∀ r, r ≤ N1 → M0.getD r [] = (List.range (f.getD 0 []).length).map (fun n =>
      (dft2F f r n).re / (f.length : ℝ) / ((f.getD 0 []).length : ℝ) * 2) := by
    intro r hr
    rw [hM0]
    exact getD_range_map _ _ _ (by omega) _
  have hval : ∀ r, r ≤ N1 → (M0.getD r []).getD n 0 =
      (dft2F f r n).re / (2 * N1 : ℝ) / (N2 : ℝ) * 2 := by
    intro r hr
    rw [hM0row r hr, getD_range_map _ _ _ (by omega : n < (f.getD 0 []).length) 0, h1, h2]
    push_cast
    ring
  by_cases hm0 : m = 0
  · subst hm0
    rw [halveRow, rowOp_getD_ne _ _ _ _ (by omega : N1 ≠ 0)]
    rw [halveRow, rowOp_getD_self _ _ _ (by rw [hM0len]; omega)]
    rw [getD_map_lt _ _ n
      (by rw [hM0row 0 (by omega), List.length_map, List.length_range, h2]; omega) 0 0,
      hval 0 (by omega)]
    rw [if_pos (Or.inl rfl)]
  · by_cases hmN : m = N1
    · subst hmN
      rw [halveRow, rowOp_getD_self _ _ _
        (by rw [halveRow, List.length_set, hM0len]; omega)]
      rw [halveRow, rowOp_getD_ne _ _ _ _ (by omega : (0 : ℕ) ≠ m)]
      rw [getD_map_lt _ _ n
        (by rw [hM0row m le_rfl, List.length_map, List.length_range, h2]; omega) 0 0,
        hval m le_rfl]
      rw [if_pos (Or.inr rfl)]
    · rw [halveRow, rowOp_getD_ne _ _ _ _ (fun h => hmN h.symm)]
      rw [halveRow, rowOp_getD_ne _ _ _ _ (fun h => hm0 h.symm)]
      rw [hval m hm, if_neg (by tauto)]
      ring

/-- Entry `(m, n)` of the halved sine array of `rfft2D`. -/
lemma fftsinMat_entry (f : List (List ℝ)) (N1 N2 : ℕ) (hN1 : 0 < N1)
    (h1 : f.length = 2 * N1) (h2 : (f.getD 0 []).length = N2)
    (m n : ℕ) (hm : m ≤ N1) (hn : n < N2) :
    ((fftsinMat f).getD m []).getD n 0 =
      -(dft2F f m n).im / (2 * N1 : ℝ) / (N2 : ℝ) * 2 / (if m = 0 ∨ m = N1 then 2 else 1) := by
  have hhalf : f.length / 2 = N1 := by omega
  have hlast : f.length / 2 + 1 - 1 = N1 := by omega
  rw [fftsinMat, hlast, hhalf]
  set M0 := (List.range (N1 + 1)).map (fun m =>
    (List.range (f.getD 0 []).length).map (fun n =>
      -(dft2F f m n).im / (f.length : ℝ) / ((f.getD 0 []).length : ℝ) * 2)) with hM0
  have hM0len : M0.length = N1 + 1 := by simp [hM0]
  have hM0row : ∀ r, r ≤ N1 → M0.getD r [] = (List.range (f.getD 0 []).length).map (fun n =>
      -(dft2F f r n).im / (f.length : ℝ) / ((f.getD 0 []).length : ℝ) * 2) := by
    intro r hr
    rw [hM0]
    exact getD_range_map _ _ _ (by omega) _
  have hval : ∀ r, r ≤ N1 → (M0.getD r []).getD n 0 =
      -(dft2F f r n).im / (2 * N1 : ℝ) / (N2 : ℝ) * 2 := by
    intro r hr
    rw [hM0row r hr, getD_range_map _ _ _ (by omega : n < (f.getD 0 []).length) 0, h1, h2]
    push_cast
    ring
  by_cases hm0 : m = 0
  · subst hm0
    rw [halveRow, rowOp_getD_ne _ _ _ _ (by omega : N1 ≠ 0)]
    rw [halveRow, rowOp_getD_self _ _ _ (by rw [hM0len]; omega)]
    rw [getD_map_lt _ _ n
      (by rw [hM0row 0 (by omega), List.length_map, List.length_range, h2]; omega) 0 0,
      hval 0 (by omega)]
    rw [if_pos (Or.inl rfl)]
  · by_cases hmN : m = N1
    · subst hmN
      rw [halveRow, rowOp_getD_self _ _ _
        (by rw [halveRow, List.length_set, hM0len]; omega)]
      rw [halveRow, rowOp_getD_ne _ _ _ _ (by omega : (0 : ℕ) ≠ m)]
      rw [getD_map_lt _ _ n
        (by rw [hM0row m le_rfl, List.length_map, List.length_range, h2]; omega) 0 0,
        hval m le_rfl]
      rw [if_pos (Or.inr rfl)]
    · rw [halveRow, rowOp_getD_ne _ _ _ _ (fun h => hmN h.symm)]
      rw [halveRow, rowOp_getD_ne _ _ _ _ (fun h => hm0 h.symm)]
      rw [hval m hm, if_neg (by tauto)]
      ring

end Matrix2DEntries

section RFFT2DAccess

lemma idxlist_length (ntor : ℕ) : (idxlist ntor).length = 2 * ntor + 1 := by
  simp [idxlist]
  omega

lemma rfft2D_fst_length (f : List (List ℝ)) (mpol ntor : ℕ) :
    (rfft2D f mpol ntor).1.length = mpol + 1 := by
  simp [rfft2D]

lemma rfft2D_snd_length (f : List (List ℝ)) (mpol ntor : ℕ) :
    (rfft2D f mpol ntor).2.length = mpol + 1 := by
  simp [rfft2D]

lemma rfft2D_fst_getD (f : List (List ℝ)) (mpol ntor r : ℕ) (hr : r < mpol + 1) :
    ((rfft2D f mpol ntor).1).getD r [] = (idxlist ntor).map (fun idx =>
      ((fftcosMat f).getD r []).getD ((idx % (((f.getD 0 []).length : ℕ) : ℤ)).toNat) 0) := by
  simp only [rfft2D]
  exact getD_range_map _ _ _ hr _

lemma rfft2D_snd_getD (f : List (List ℝ)) (mpol ntor r : ℕ) (hr : r < mpol + 1) :
    ((rfft2D f mpol ntor).2).getD r [] = (idxlist ntor).map (fun idx =>
      ((fftsinMat f).getD r []).getD ((idx % (((f.getD 0 []).length : ℕ) : ℤ)).toNat) 0) := by
  simp only [rfft2D]
  exact getD_range_map _ _ _ hr _

lemma assignRow_length (idxl : List ℤ) (src : List ℝ) (w : ℕ) :
    (assignRow idxl src w).length = w := by
  rw [assignRow]
  suffices h : ∀ (pairs : List (ℤ × ℝ)) (init : List ℝ),
      (pairs.foldl (fun row p => row.set ((p.1 % (w : ℤ)).toNat) p.2) init).length =
        init.length by
    rw [h]
    exact List.length_replicate _ _
  intro pairs
  induction pairs with
  | nil => intro init; rfl
  | cons q rest ih =>
    intro init
    rw [List.foldl_cons, ih, List.length_set]

lemma getD_zipWith_lt {α β γ : Type} (h : α → β → γ) (l1 : List α) (l2 : List β) (m : ℕ)
    (h1 : m < l1.length) (h2 : m < l2.length) (d : γ) (d1 : α) (d2 : β) :
    (List.zipWith h l1 l2).getD m d = h (l1.getD m d1) (l2.getD m d2) := by
  rw [List.getD_eq_getElem?_getD, List.getElem?_zipWith', List.getElem?_eq_getElem h1,
    List.getElem?_eq_getElem h2, List.getD_eq_getElem?_getD, List.getElem?_eq_getElem h1,
    List.getD_eq_getElem?_getD, List.getElem?_eq_getElem h2]
  rfl

/-- The 2D DFT coefficient is the column-wise 1D DFT of the row-wise 1D
DFT coefficients. -/
lemma dft2F_as_dft_of_cols (f : List (List ℝ)) (m n : ℕ) :
    dft2F f m n = ∑ v ∈ Finset.range (f.getD 0 []).length,
      dftF (f.map (fun row => row.getD v 0)) m * expu (f.getD 0 []).length (-(n * v : ℕ)) := by
  unfold dft2F dftF
  rw [Finset.sum_comm]
  apply Finset.sum_congr rfl
  intro v hv
  rw [Finset.mem_range] at hv
  rw [Finset.sum_mul, List.length_map]
  apply Finset.sum_congr rfl
  intro u hu
  rw [Finset.mem_range] at hu
  rw [getD_map_lt (fun row => row.getD v 0) f u hu 0 []]

end RFFT2DAccess

section Roundtrip2D

/-- Row `r` of `fancyAssign` when `r` is inside both the row range and the
source range. -/
lemma fancyAssign_row (ntor rows width nsrc : ℕ) (src : List (List ℝ)) (r : ℕ)
    (hr : r < rows) (hs : r < nsrc) :
    (fancyAssign ntor rows width nsrc src).getD r [] =
      assignRow (idxlist ntor) (src.getD r []) width := by
  rw [fancyAssign, getD_range_map _ _ _ hr _, if_pos hs]

lemma fancyAssign_length (ntor rows width nsrc : ℕ) (src : List (List ℝ)) :
    (fancyAssign ntor rows width nsrc src).length = rows := by
  rw [fancyAssign, List.length_map, List.length_range]

lemma doubleRow_double_length (A : List (List ℝ)) (i j : ℕ) :
    (doubleRow (doubleRow A i) j).length = A.length := by
  rw [doubleRow, doubleRow, List.length_set, List.length_set]

/-- Doubling an entry commutes with `getD` even out of range (both sides 0). -/
lemma getD_map_double (l : List ℝ) (c : ℕ) :
    (l.map (· * 2)).getD c 0 = l.getD c 0 * 2 := by
  rw [List.getD_eq_getElem?_getD, List.getElem?_map, List.getD_eq_getElem?_getD]
  cases l[c]? <;> simp

/-- Entry `(r, c)` of the double row-doubling `cn_pad[0,:] *= 2 ; cn_pad[-1,:] *= 2`
(qfm.py 476-479): rows 0 and `mpol` are doubled, other rows unchanged. -/
lemma doubleRow_double_entry (A : List (List ℝ)) (mpol : ℕ) (hmp : 0 < mpol)
    (hAlen : A.length = mpol + 1) (r c : ℕ) (hr : r ≤ mpol) :
    ((doubleRow (doubleRow A 0) mpol).getD r []).getD c 0 =
      (A.getD r []).getD c 0 * (if r = 0 ∨ r = mpol then 2 else 1) := by
  by_cases hr0 : r = 0
  · subst hr0
    rw [doubleRow, rowOp_getD_ne _ _ _ _ (by omega : mpol ≠ 0)]
    rw [doubleRow, rowOp_getD_self _ _ _ (by omega)]
    rw [getD_map_double, if_pos (Or.inl rfl)]
  · by_cases hrN : r = mpol
    · subst hrN
      rw [doubleRow, rowOp_getD_self _ _ _ (by rw [doubleRow, List.length_set]; omega)]
      rw [doubleRow, rowOp_getD_ne _ _ _ _ (by omega : (0 : ℕ) ≠ r)]
      rw [getD_map_double, if_pos (Or.inr rfl)]
    · rw [doubleRow, rowOp_getD_ne _ _ _ _ (fun h => hrN h.symm)]
      rw [doubleRow, rowOp_getD_ne _ _ _ _ (fun h => hr0 h.symm)]
      rw [if_neg (by tauto)]
      ring

lemma doubleRow_double_row_length (A : List (List ℝ)) (mpol : ℕ) (hmp : 0 < mpol)
    (hAlen : A.length = mpol + 1) (L : ℕ)
    (hrowlen : ∀ r, r ≤ mpol → (A.getD r []).length = L)
    (r : ℕ) (hr : r ≤ mpol) :
    ((doubleRow (doubleRow A 0) mpol).getD r []).length = L := by
  by_cases hr0 : r = 0
  · subst hr0
    rw [doubleRow, rowOp_getD_ne _ _ _ _ (by omega : mpol ≠ 0),
      doubleRow, rowOp_getD_self _ _ _ (by omega), List.length_map]
    exact hrowlen 0 (by omega)
  · by_cases hrN : r = mpol
    · subst hrN
      rw [doubleRow, rowOp_getD_self _ _ _ (by rw [doubleRow, List.length_set]; omega),
        List.length_map, doubleRow, rowOp_getD_ne _ _ _ _ (by omega : (0 : ℕ) ≠ r)]
      exact hrowlen r le_rfl
    · rw [doubleRow, rowOp_getD_ne _ _ _ _ (fun h => hrN h.symm),
        doubleRow, rowOp_getD_ne _ _ _ _ (fun h => hr0 h.symm)]
      exact hrowlen r hr

/-- Entry `(r, c)` of the doubled cosine pad built by `irfft2D` from the output
of `rfft2D`: the gather (`rfft2D` truncation by `idxlist`), the scatter
(`cn_pad[..., idxlist] = cn`), the edge-row halving of `rfft2D` and the
edge-row doubling of `irfft2D` all cancel, leaving the plain scaled 2D-DFT
real part. -/
lemma roundtrip2D_cnp_entry (f : List (List ℝ)) (mpol ntor : ℕ)
    (hmp : 0 < mpol) (hnt : 0 < ntor) (hrows : f.length = 2 * mpol)
    (h0 : (f.getD 0 []).length = 2 * ntor)
    (r c : ℕ) (hr : r ≤ mpol) (hc : c < 2 * ntor) :
    List.getD (List.getD (doubleRow (doubleRow
        (fancyAssign ntor (mpol + 1) (2 * ntor) (mpol + 1) (rfft2D f mpol ntor).1) 0) mpol)
      r []) c 0 =
      (dft2F f r c).re / (2 * mpol : ℝ) / (2 * ntor : ℝ) * 2 := by
  rw [doubleRow_double_entry _ mpol hmp (by rw [fancyAssign_length]) r c hr]
  rw [fancyAssign_row ntor (mpol + 1) (2 * ntor) (mpol + 1) _ r (by omega) (by omega)]
  have hcnr : (rfft2D f mpol ntor).1.getD r [] = (idxlist ntor).map (fun idx =>
      ((fftcosMat f).getD r []).getD ((idx % ((2 * ntor : ℕ) : ℤ)).toNat) 0) := by
    rw [rfft2D_fst_getD f mpol ntor r (by omega)]
    simp only [h0]
  rw [hcnr, assignRow_gather _ ntor hnt c hc]
  rw [fftcosMat_entry f mpol (2 * ntor) hmp hrows h0 r c hr hc]
  by_cases h : r = 0 ∨ r = mpol
  · rw [if_pos h]; push_cast; ring
  · rw [if_neg h]; push_cast; ring

/-- Sine analogue of `roundtrip2D_cnp_entry`. -/
lemma roundtrip2D_snp_entry (f : List (List ℝ)) (mpol ntor : ℕ)
    (hmp : 0 < mpol) (hnt : 0 < ntor) (hrows : f.length = 2 * mpol)
    (h0 : (f.getD 0 []).length = 2 * ntor)
    (r c : ℕ) (hr : r ≤ mpol) (hc : c < 2 * ntor) :
    List.getD (List.getD (doubleRow (doubleRow
        (fancyAssign ntor (mpol + 1) (2 * ntor) (mpol + 1) (rfft2D f mpol ntor).2) 0) mpol)
      r []) c 0 =
      -(dft2F f r c).im / (2 * mpol : ℝ) / (2 * ntor : ℝ) * 2 := by
  rw [doubleRow_double_entry _ mpol hmp (by rw [fancyAssign_length]) r c hr]
  rw [fancyAssign_row ntor (mpol + 1) (2 * ntor) (mpol + 1) _ r (by omega) (by omega)]
  have hsnr : (rfft2D f mpol ntor).2.getD r [] = (idxlist ntor).map (fun idx =>
      ((fftsinMat f).getD r []).getD ((idx % ((2 * ntor : ℕ) : ℤ)).toNat) 0) := by
    rw [rfft2D_snd_getD f mpol ntor r (by omega)]
    simp only [h0]
  rw [hsnr, assignRow_gather _ ntor hnt c hc]
  rw [fftsinMat_entry f mpol (2 * ntor) hmp hrows h0 r c hr hc]
  by_cases h : r = 0 ∨ r = mpol
  · rw [if_pos h]; push_cast; ring
  · rw [if_neg h]; push_cast; ring

/-- Entry `(m, c)` of the complex array `cn_pad - 1j * sn_pad` fed by `irfft2D`
into `np.fft.irfft2`: it is the 2D DFT of `f` scaled by `2 / (Nfft1 * Nfft2)`. -/
lemma roundtrip2D_cpx_entry (f : List (List ℝ)) (mpol ntor : ℕ)
    (hmp : 0 < mpol) (hnt : 0 < ntor) (hrows : f.length = 2 * mpol)
    (h0 : (f.getD 0 []).length = 2 * ntor)
    (m c : ℕ) (hm : m ≤ mpol) (hc : c < 2 * ntor) :
    List.getD (List.getD (List.zipWith (fun crow srow =>
        List.zipWith (fun c s => Complex.ofReal c - Complex.I * Complex.ofReal s) crow srow)
      (doubleRow (doubleRow
        (fancyAssign ntor (mpol + 1) (2 * ntor) (mpol + 1) (rfft2D f mpol ntor).1) 0) mpol)
      (doubleRow (doubleRow
        (fancyAssign ntor (mpol + 1) (2 * ntor) (mpol + 1) (rfft2D f mpol ntor).2) 0) mpol))
      m []) c 0 =
      Complex.ofReal (2 / ((2 * mpol : ℝ) * (2 * ntor : ℝ))) * dft2F f m c := by
  have hclen : List.length (doubleRow (doubleRow
      (fancyAssign ntor (mpol + 1) (2 * ntor) (mpol + 1) (rfft2D f mpol ntor).1) 0) mpol)
      = mpol + 1 := by
    rw [doubleRow_double_length, fancyAssign_length]
  have hslen : List.length (doubleRow (doubleRow
      (fancyAssign ntor (mpol + 1) (2 * ntor) (mpol + 1) (rfft2D f mpol ntor).2) 0) mpol)
      = mpol + 1 := by
    rw [doubleRow_double_length, fancyAssign_length]
  have hcrow : List.length (List.getD (doubleRow (doubleRow
      (fancyAssign ntor (mpol + 1) (2 * ntor) (mpol + 1) (rfft2D f mpol ntor).1) 0) mpol)
      m []) = 2 * ntor := by
    refine doubleRow_double_row_length _ mpol hmp (by rw [fancyAssign_length]) (2 * ntor)
      ?_ m hm
    intro r' hr'
    rw [fancyAssign_row _ _ _ _ _ r' (by omega) (by omega), assignRow_length]
  have hsrow : List.length (List.getD (doubleRow (doubleRow
      (fancyAssign ntor (mpol + 1) (2 * ntor) (mpol + 1) (rfft2D f mpol ntor).2) 0) mpol)
      m []) = 2 * ntor := by
    refine doubleRow_double_row_length _ mpol hmp (by rw [fancyAssign_length]) (2 * ntor)
      ?_ m hm
    intro r' hr'
    rw [fancyAssign_row _ _ _ _ _ r' (by omega) (by omega), assignRow_length]
  rw [getD_zipWith_lt _ _ _ m (by rw [hclen]; omega) (by rw [hslen]; omega) [] [] []]
  rw [getD_zipWith_lt _ _ _ c (by rw [hcrow]; omega) (by rw [hsrow]; omega) 0 0 0]
  rw [roundtrip2D_cnp_entry f mpol ntor hmp hnt hrows h0 m c hm hc,
    roundtrip2D_snp_entry f mpol ntor hmp hnt hrows h0 m c hm hc]
  have hmpc : ((mpol : ℕ) : ℂ) ≠ 0 := Nat.cast_ne_zero.mpr (by omega)
  have hntc : ((ntor : ℕ) : ℂ) ≠ 0 := Nat.cast_ne_zero.mpr (by omega)
  push_cast
  field_simp
  conv_rhs => rw [← Complex.re_add_im (dft2F f m c)]
  ring

/-- Entry `(m, v)` of the inverse complex transform along the last axis, for
any matrix whose entries are the scaled 2D DFT of `f`: the column transform
inverts the inner DFT, leaving the scaled 1D (row-direction) DFT of column `v`
of `f`. -/
lemma roundtrip2D_H_entry (f : List (List ℝ)) (mpol ntor : ℕ) (hnt : 0 < ntor)
    (h0 : (f.getD 0 []).length = 2 * ntor)
    (A : List (List ℂ)) (s : ℝ) (hAlen : A.length = mpol + 1)
    (hA : ∀ m, m ≤ mpol → ∀ c, c < 2 * ntor → (A.getD m []).getD c 0 =
      Complex.ofReal s * dft2F f m c)
    (m : ℕ) (hm : m ≤ mpol) (v : ℕ) (hv : v < 2 * ntor) :
    ((ifftAxis1 A (2 * ntor)).getD m []).getD v 0 =
      Complex.ofReal s * dftF (f.map (fun row => row.getD v 0)) m := by
  have hrow : (ifftAxis1 A (2 * ntor)).getD m [] = (List.range (2 * ntor)).map (fun v =>
      (1 / ((2 * ntor : ℕ) : ℂ)) * ∑ n ∈ Finset.range (2 * ntor),
        (A.getD m []).getD n 0 * expu (2 * ntor) (n * v : ℕ)) := by
    rw [ifftAxis1]
    exact getD_map_lt _ _ m (by rw [hAlen]; omega) [] []
  rw [hrow, getD_range_map _ _ _ hv _]
  have hsum : ∑ n ∈ Finset.range (2 * ntor),
      (A.getD m []).getD n 0 * expu (2 * ntor) (n * v : ℕ) =
      Complex.ofReal s *
        ∑ n ∈ Finset.range (2 * ntor), dft2F f m n * expu (2 * ntor) (n * v : ℕ) := by
    rw [Finset.mul_sum]
    refine Finset.sum_congr rfl (fun n hn => ?_)
    rw [Finset.mem_range] at hn
    rw [hA m hm n hn]
    ring
  rw [hsum]
  have hGdec : ∀ n ∈ Finset.range (2 * ntor), dft2F f m n * expu (2 * ntor) (n * v : ℕ) =
      (∑ w ∈ Finset.range (2 * ntor),
        dftF (f.map (fun row => row.getD w 0)) m * expu (2 * ntor) (-(n * w : ℕ))) *
        expu (2 * ntor) (n * v : ℕ) := by
    intro n _
    rw [dft2F_as_dft_of_cols]
    simp only [h0]
  rw [Finset.sum_congr rfl hGdec,
    sum_dftc_expu (fun w => dftF (f.map (fun row => row.getD w 0)) m) (2 * ntor)
      (by omega) v hv]
  have hz : ((2 * ntor : ℕ) : ℂ) ≠ 0 := Nat.cast_ne_zero.mpr (by omega)
  have hz1 : ((ntor : ℕ) : ℂ) ≠ 0 := Nat.cast_ne_zero.mpr (by omega)
  field_simp
  ring

/-- Value of one output sample of `irfft2D` (before the grid assembly): the
real inverse along the row direction applied to column `v`, times the final
`* nfft_theta * nfft_zeta / 2` scaling, recovers the original sample. -/
lemma roundtrip2D_out_entry (f : List (List ℝ)) (mpol ntor : ℕ)
    (hmp : 0 < mpol) (hnt : 0 < ntor) (hrows : f.length = 2 * mpol)
    (H : List (List ℂ)) (hHlen : H.length = mpol + 1)
    (hHent : ∀ m, m ≤ mpol → ∀ v, v < 2 * ntor → (H.getD m []).getD v 0 =
      Complex.ofReal (2 / ((2 * mpol : ℝ) * (2 * ntor : ℝ))) *
        dftF (f.map (fun row => row.getD v 0)) m)
    (u : ℕ) (hu : u < 2 * mpol) (v : ℕ) (hv : v < 2 * ntor) :
    (irfftEven (colList H v) mpol).getD u 0 *
      ((2 * mpol : ℕ) : ℝ) * ((2 * ntor : ℕ) : ℝ) / 2 = (f.getD u []).getD v 0 := by
  have hmpr : (mpol : ℝ) ≠ 0 := Nat.cast_ne_zero.mpr (by omega)
  have hntr : (ntor : ℝ) ≠ 0 := Nat.cast_ne_zero.mpr (by omega)
  have hfcol_len : (f.map (fun row => row.getD v 0)).length = 2 * mpol := by
    rw [List.length_map, hrows]
  have hcolval : ∀ m, m ≤ mpol → (colList H v).getD m 0 = (H.getD m []).getD v 0 := by
    intro m hm
    rw [colList]
    exact getD_map_lt _ _ m (by rw [hHlen]; omega) 0 []
  have hinner : (irfftEven (colList H v) mpol).getD u 0 =
      (1 / (2 * mpol : ℝ)) * (((colList H v).getD 0 0).re +
        (-1 : ℝ) ^ u * ((colList H v).getD mpol 0).re +
        2 * ∑ k ∈ Finset.Ico 1 mpol,
          (((colList H v).getD k 0) * expu (2 * mpol) (u * k : ℕ)).re) := by
    rw [irfftEven]
    exact getD_range_map _ _ _ hu _
  rw [hinner]
  set rc : ℝ := 2 / ((2 * mpol : ℝ) * (2 * ntor : ℝ)) with hrc
  have hre0 : ((colList H v).getD 0 0).re =
      rc * (dftF (f.map (fun row => row.getD v 0)) 0).re := by
    rw [hcolval 0 (by omega), hHent 0 (by omega) v hv]
    simp [Complex.mul_re]
  have hreN : ((colList H v).getD mpol 0).re =
      rc * (dftF (f.map (fun row => row.getD v 0)) mpol).re := by
    rw [hcolval mpol le_rfl, hHent mpol le_rfl v hv]
    simp [Complex.mul_re]
  have hrek : ∀ k ∈ Finset.Ico 1 mpol,
      (((colList H v).getD k 0) * expu (2 * mpol) (u * k : ℕ)).re =
      rc * ((dftF (f.map (fun row => row.getD v 0)) k) *
        expu (2 * mpol) (u * k : ℕ)).re := by
    intro k hk
    rw [Finset.mem_Ico] at hk
    rw [hcolval k (by omega), hHent k (by omega) v hv, mul_assoc]
    simp [Complex.mul_re, Complex.ofReal_re, Complex.ofReal_im]
  rw [hre0, hreN, Finset.sum_congr rfl hrek, ← Finset.mul_sum]
  have hpair := re_sum_pairing (f.map (fun row => row.getD v 0)) mpol hmp hfcol_len u
  have hsumval : (∑ k ∈ Finset.range (2 * mpol),
      dftF (f.map (fun row => row.getD v 0)) k * expu (2 * mpol) (u * k : ℕ)).re =
      (2 * mpol : ℝ) * (f.map (fun row => row.getD v 0)).getD u 0 := by
    rw [sum_dft_expu (f.map (fun row => row.getD v 0)) (2 * mpol) (by omega)
      hfcol_len u hu]
    rw [← Complex.ofReal_natCast, ← Complex.ofReal_mul, Complex.ofReal_re]
    push_cast
    ring
  have hx : (f.map (fun row => row.getD v 0)).getD u 0 = (f.getD u []).getD v 0 := by
    rw [getD_map_lt _ _ u (by omega) 0 []]
  calc (1 / (2 * mpol : ℝ)) * (rc * (dftF (f.map (fun row => row.getD v 0)) 0).re +
        (-1 : ℝ) ^ u * (rc * (dftF (f.map (fun row => row.getD v 0)) mpol).re) +
        2 * (rc * ∑ k ∈ Finset.Ico 1 mpol,
          ((dftF (f.map (fun row => row.getD v 0)) k) *
            expu (2 * mpol) (u * k : ℕ)).re)) *
        ((2 * mpol : ℕ) : ℝ) * ((2 * ntor : ℕ) : ℝ) / 2
      = rc * (ntor : ℝ) * ((dftF (f.map (fun row => row.getD v 0)) 0).re +
          (-1 : ℝ) ^ u * (dftF (f.map (fun row => row.getD v 0)) mpol).re +
          2 * ∑ k ∈ Finset.Ico 1 mpol,
            ((dftF (f.map (fun row => row.getD v 0)) k) *
              expu (2 * mpol) (u * k : ℕ)).re) := by
        push_cast
        field_simp
        ring
    _ = rc * (ntor : ℝ) * ((2 * mpol : ℝ) * (f.getD u []).getD v 0) := by
        rw [← hpair, hsumval, hx]
    _ = (f.getD u []).getD v 0 := by
        rw [hrc]
        field_simp
        ring

/-- The full grid assembly: `irfft2` applied to any matrix carrying the scaled
2D DFT of `f`, followed by the final scaling of `irfft2D`, reproduces `f`. -/
lemma roundtrip2D_assemble (f : List (List ℝ)) (mpol ntor : ℕ)
    (hmp : 0 < mpol) (hnt : 0 < ntor) (hrows : f.length = 2 * mpol)
    (hcols : ∀ row ∈ f, row.length = 2 * ntor)
    (h0 : (f.getD 0 []).length = 2 * ntor)
    (A : List (List ℂ)) (hAlen : A.length = mpol + 1)
    (hA : ∀ m, m ≤ mpol → ∀ c, c < 2 * ntor → (A.getD m []).getD c 0 =
      Complex.ofReal (2 / ((2 * mpol : ℝ) * (2 * ntor : ℝ))) * dft2F f m c) :
    (irfft2 A (2 * ntor)).map (fun row => row.map
      (fun x => x * ((2 * mpol : ℕ) : ℝ) * ((2 * ntor : ℕ) : ℝ) / 2)) = f := by
  have hHlen : (ifftAxis1 A (2 * ntor)).length = mpol + 1 := by
    rw [ifftAxis1, List.length_map, hAlen]
  have hHent : ∀ m, m ≤ mpol → ∀ v, v < 2 * ntor →
      ((ifftAxis1 A (2 * ntor)).getD m []).getD v 0 =
      Complex.ofReal (2 / ((2 * mpol : ℝ) * (2 * ntor : ℝ))) *
        dftF (f.map (fun row => row.getD v 0)) m :=
    fun m hm v hv => roundtrip2D_H_entry f mpol ntor hnt h0 A _ hAlen hA m hm v hv
  have eA : A.length - 1 = mpol := by omega
  simp only [irfft2]
  rw [eA]
  apply List.ext_getElem
  · rw [List.length_map, List.length_map, List.length_range, hrows]
  · intro u hu1 hu2
    have hu : u < 2 * mpol := by
      rw [List.length_map, List.length_map, List.length_range] at hu1
      exact hu1
    rw [List.getElem_map, List.getElem_map, List.getElem_range]
    have hulen : f[u].length = 2 * ntor := hcols _ (List.getElem_mem _)
    show ((List.range (2 * ntor)).map (fun v =>
        (irfftEven (colList (ifftAxis1 A (2 * ntor)) v) mpol).getD u 0)).map
        (fun x => x * ((2 * mpol : ℕ) : ℝ) * ((2 * ntor : ℕ) : ℝ) / 2) = f[u]
    apply List.ext_getElem
    · rw [List.length_map, List.length_map, List.length_range, hulen]
    · intro v hv1 hv2
      have hv : v < 2 * ntor := by
        rw [List.length_map, List.length_map, List.length_range] at hv1
        exact hv1
      rw [List.getElem_map, List.getElem_map, List.getElem_range]
      have hgu : f.getD u [] = f[u] := by
        rw [List.getD_eq_getElem?_getD, List.getElem?_eq_getElem hu2, Option.getD_some]
      have hfx : (f.getD u []).getD v 0 = f[u][v] := by
        rw [hgu, List.getD_eq_getElem?_getD, List.getElem?_eq_getElem hv2, Option.getD_some]
      rw [← hfx]
      exact roundtrip2D_out_entry f mpol ntor hmp hnt hrows
        (ifftAxis1 A (2 * ntor)) hHlen hHent u hu v hv

/-- 2D round trip: `irfft2D` applied to the output of `rfft2D` at the matching
resolution recovers any `(2 mpol) × (2 ntor)` real matrix exactly. -/
lemma rfft2D_irfft2D_roundtrip (f : List (List ℝ)) (mpol ntor : ℕ)
    (hmp : 0 < mpol) (hnt : 0 < ntor) (hrows : f.length = 2 * mpol)
    (hcols : ∀ row ∈ f, row.length = 2 * ntor) :
    irfft2D (rfft2D f mpol ntor).1 (rfft2D f mpol ntor).2 (2 * mpol) (2 * ntor) = f := by
  have hflen : 0 < f.length := by omega
  have h0 : (f.getD 0 []).length = 2 * ntor := by
    cases f with
    | nil => simp at hflen
    | cons r rs => exact hcols r (List.mem_cons_self r rs)
  have hcnlen : (rfft2D f mpol ntor).1.length = mpol + 1 := rfft2D_fst_length f mpol ntor
  have hcnrow0 : ((rfft2D f mpol ntor).1.getD 0 []).length = 2 * ntor + 1 := by
    rw [rfft2D_fst_getD f mpol ntor 0 (by omega), List.length_map, idxlist_length]
  have e1 : (rfft2D f mpol ntor).1.length - 1 = mpol := by omega
  have e2 : (((rfft2D f mpol ntor).1.getD 0 []).length - 1) / 2 = ntor := by
    rw [hcnrow0]
    omega
  have e3 : 2 * mpol / 2 = mpol := by omega
  have e4 : 2 * ntor / 2 = ntor := by omega
  have e5 : mpol + 1 - 1 = mpol := by omega
  simp only [irfft2D]
  rw [e1, e2, e3, e4, e5]
  refine roundtrip2D_assemble f mpol ntor hmp hnt hrows hcols h0 _ ?_
    (fun m hm c hc => roundtrip2D_cpx_entry f mpol ntor hmp hnt hrows h0 m c hm hc)
  rw [List.length_zipWith, doubleRow_double_length, doubleRow_double_length,
    fancyAssign_length, fancyAssign_length, Nat.min_self]

end Roundtrip2D

/-- C4: round trip `inverse(forward(f)) == f` for band-limited sampled data, in
both the 1D case (`irfft1D` of `rfft1D` at multiplier 1 on any even-length real
array) and the 2D case (`irfft2D` of `rfft2D` at the matching resolution
`nfft_theta = 2*mpol`, `nfft_zeta = 2*ntor` on any `2*mpol × 2*ntor` real
array).  Over the reals the reconstruction is exact, hence the floating-point
implementation recovers `f` to rounding tolerance. -/
theorem fft_roundtrip_1d_2d (f1 : List ℝ) (N : ℕ) (hN : 0 < N)
    (hf1 : f1.length = 2 * N)
    (f2 : List (List ℝ)) (mpol ntor : ℕ) (hmp : 0 < mpol) (hnt : 0 < ntor)
    (hrows : f2.length = 2 * mpol) (hcols : ∀ row ∈ f2, row.length = 2 * ntor) :
    irfft1D (rfft1D f1).1 (rfft1D f1).2 1 = f1 ∧
    irfft2D (rfft2D f2 mpol ntor).1 (rfft2D f2 mpol ntor).2 (2 * mpol) (2 * ntor) = f2 :=
  ⟨rfft1D_irfft1D_roundtrip f1 N hN hf1,
   rfft2D_irfft2D_roundtrip f2 mpol ntor hmp hnt hrows hcols⟩

/-- Concrete instance of the round trip at `f1 = [1, 2]`, `f2 = [[1, 2], [3, 4]]`. -/
theorem fft_roundtrip_1d_2d_witness :
    irfft1D (rfft1D [1, 2]).1 (rfft1D [1, 2]).2 1 = [1, 2] ∧
    irfft2D (rfft2D [[1, 2], [3, 4]] 1 1).1 (rfft2D [[1, 2], [3, 4]] 1 1).2 (2 * 1) (2 * 1) =
      [[1, 2], [3, 4]] :=
  fft_roundtrip_1d_2d [1, 2] 1 Nat.one_pos rfl
    [[1, 2], [3, 4]] 1 1 Nat.one_pos Nat.one_pos rfl
    (by
      intro row hr
      rcases List.mem_cons.mp hr with h | hr2
      · subst h; rfl
      · rcases List.mem_cons.mp hr2 with h | h3
        · subst h; rfl
        · exact absurd h3 (List.not_mem_nil _))


section C6Loop

/-- One failing step of `actionSolveAux`: the loop returns the `RuntimeError`
immediately and appends exactly one invocation record. -/
lemma actionSolveAux_failure (solver : List ℝ → ℝ → Bool × List ℝ) (pp qq : ℤ)
    (fmt : ℝ → String) (dt : ℝ) (k : ℕ)
    (hsucc : ∀ (xx : List ℝ) (j : ℕ), j < k → (solver xx ((j : ℝ) * dt)).1 = true)
    (hfail : ∀ xx : List ℝ, (solver xx ((k : ℝ) * dt)).1 = false) :
    ∀ (rem jpq : ℕ) (prev : ℝ × List ℝ × List ℝ × List ℝ × List ℝ)
      (trace : List (List ℝ × ℝ × ℝ)), jpq ≤ k → k < jpq + rem →
    ∃ L : List (List ℝ × ℝ × ℝ),
      (actionSolveAux solver pp qq fmt dt rem jpq prev trace).1 = trace ++ L ∧
      L.length = k - jpq + 1 ∧
      (∀ i : ℕ, i < L.length → (L.getD i ([], 0, 0)).2.1 = ((jpq + i : ℕ) : ℝ) * dt ∧
        (L.getD i ([], 0, 0)).2.2 = 1e-8) ∧
      (actionSolveAux solver pp qq fmt dt rem jpq prev trace).2 =
        Except.error (qfmOrbitError pp qq fmt ((k : ℝ) * dt)) := by
  intro rem
  induction rem with
  | zero => intro jpq prev trace h1 h2; omega
  | succ rem ih =>
    intro jpq prev trace h1 h2
    by_cases hjk : jpq = k
    · subst hjk
      have hstep : actionSolveAux solver pp qq fmt dt (rem + 1) jpq prev trace =
          (trace ++ [(pack_dof prev.1 prev.2.1 prev.2.2.1 prev.2.2.2.1 prev.2.2.2.2,
            (jpq : ℝ) * dt, 1e-8)],
           Except.error (qfmOrbitError pp qq fmt ((jpq : ℝ) * dt))) := by
        simp [actionSolveAux, hfail]
      refine ⟨[(pack_dof prev.1 prev.2.1 prev.2.2.1 prev.2.2.2.1 prev.2.2.2.2,
        (jpq : ℝ) * dt, 1e-8)], ?_, ?_, ?_, ?_⟩
      · rw [hstep]
      · simp
      · intro i hi
        simp only [List.length_singleton] at hi
        have hi0 : i = 0 := by omega
        subst hi0
        refine ⟨?_, rfl⟩
        simp
      · rw [hstep]
    · have hjlt : jpq < k := by omega
      have hstep : actionSolveAux solver pp qq fmt dt (rem + 1) jpq prev trace =
          actionSolveAux solver pp qq fmt dt rem (jpq + 1)
            (nextGuess dt (unpack_dof (solver
              (pack_dof prev.1 prev.2.1 prev.2.2.1 prev.2.2.2.1 prev.2.2.2.2)
              ((jpq : ℝ) * dt)).2))
            (trace ++ [(pack_dof prev.1 prev.2.1 prev.2.2.1 prev.2.2.2.1 prev.2.2.2.2,
              (jpq : ℝ) * dt, 1e-8)]) := by
        simp [actionSolveAux, hsucc _ jpq hjlt]
      obtain ⟨L, hL1, hL2, hL3, hL4⟩ := ih (jpq + 1)
        (nextGuess dt (unpack_dof (solver
          (pack_dof prev.1 prev.2.1 prev.2.2.1 prev.2.2.2.1 prev.2.2.2.2)
          ((jpq : ℝ) * dt)).2))
        (trace ++ [(pack_dof prev.1 prev.2.1 prev.2.2.1 prev.2.2.2.1 prev.2.2.2.2,
          (jpq : ℝ) * dt, 1e-8)])
        (by omega) (by omega)
      refine ⟨(pack_dof prev.1 prev.2.1 prev.2.2.1 prev.2.2.2.1 prev.2.2.2.2,
        (jpq : ℝ) * dt, 1e-8) :: L, ?_, ?_, ?_, ?_⟩
      · rw [hstep, hL1, List.append_assoc, List.singleton_append]
      · simp only [List.length_cons, hL2]
        omega
      · intro i hi
        match i with
        | 0 =>
          refine ⟨?_, rfl⟩
          simp
        | i + 1 =>
          simp only [List.getD_cons_succ]
          simp only [List.length_cons] at hi
          obtain ⟨ha, ht⟩ := hL3 i (by omega)
          refine ⟨?_, ht⟩
          rw [ha]
          have : jpq + 1 + i = jpq + (i + 1) := by omega
          rw [this]
      · rw [hstep, hL4]

end C6Loop

/-- C6: when the external root solver reports non-convergence for the curve
with index `k` (area target `a = k * dt`) after succeeding on all earlier
curves, `QFM.action` raises a `RuntimeError` whose message names `pp`, `qq`
and the area target of the failed curve; the failure is fatal (the solver was
invoked exactly `k + 1` times, so curves after `k` are never attempted) and
this layer performs no retry: each attempted curve produced exactly one
invocation, each with its own area target and the single tolerance `1e-8`. -/
theorem action_solver_failure_fatal (solver : List ℝ → ℝ → Bool × List ℝ)
    (pp qq : ℤ) (fmt : ℝ → String) (rguess dt : ℝ) (qN fM k : ℕ) (hk : k < fM)
    (hsucc : ∀ (xx : List ℝ) (j : ℕ), j < k → (solver xx ((j : ℝ) * dt)).1 = true)
    (hfail : ∀ xx : List ℝ, (solver xx ((k : ℝ) * dt)).1 = false) :
    (actionLoop solver pp qq fmt rguess dt qN fM).2 =
      Except.error (PyErr.runtimeError ("QFM orbit for pp=" ++ toString pp ++
        ",qq=" ++ toString qq ++ ",a=" ++ fmt ((k : ℝ) * dt) ++ " not found.")) ∧
    (actionLoop solver pp qq fmt rguess dt qN fM).1.length = k + 1 ∧
    ∀ j : ℕ, j ≤ k →
      ((actionLoop solver pp qq fmt rguess dt qN fM).1.getD j ([], 0, 0)).2.1 =
        (j : ℝ) * dt ∧
      ((actionLoop solver pp qq fmt rguess dt qN fM).1.getD j ([], 0, 0)).2.2 = 1e-8 := by
  obtain ⟨L, h1, h2, h3, h4⟩ := actionSolveAux_failure solver pp qq fmt dt k hsucc hfail
    fM 0 (initGuess rguess qN) [] (by omega) (by omega)
  have hloop1 : (actionLoop solver pp qq fmt rguess dt qN fM).1 = L := by
    rw [actionLoop, h1, List.nil_append]
  have hlen : L.length = k + 1 := by omega
  refine ⟨?_, ?_, ?_⟩
  · rw [actionLoop, h4, qfmOrbitError]
  · rw [hloop1, hlen]
  · intro j hj
    rw [hloop1]
    obtain ⟨ha, ht⟩ := h3 j (by omega)
    refine ⟨?_, ht⟩
    rw [ha]
    norm_num

/-- Concrete instance of the fatal non-convergence behavior: a solver that
fails immediately stops the two-curve loop after one invocation with the
expected `RuntimeError`. -/
theorem action_solver_failure_fatal_witness :
    (actionLoop (fun _ _ => (false, [])) 1 2 (fun _ => "A") 0.5 1 5 2).2 =
      Except.error (PyErr.runtimeError ("QFM orbit for pp=" ++ toString (1 : ℤ) ++
        ",qq=" ++ toString (2 : ℤ) ++ ",a=" ++ (fun _ : ℝ => "A") (((0 : ℕ) : ℝ) * 1) ++
        " not found.")) ∧
    (actionLoop (fun _ _ => (false, [])) 1 2 (fun _ => "A") 0.5 1 5 2).1.length = 0 + 1 ∧
    (((actionLoop (fun _ _ => (false, [])) 1 2 (fun _ => "A") 0.5 1 5 2).1.getD 0
        ([], 0, 0)).2.1 = ((0 : ℕ) : ℝ) * 1 ∧
     ((actionLoop (fun _ _ => (false, [])) 1 2 (fun _ => "A") 0.5 1 5 2).1.getD 0
        ([], 0, 0)).2.2 = 1e-8) :=
  have h := action_solver_failure_fatal (fun _ _ => (false, [])) 1 2 (fun _ => "A")
    0.5 1 5 2 0 (by norm_num) (fun _ j hj => absurd hj (Nat.not_lt_zero j))
    (fun _ => rfl)
  ⟨h.1, h.2.1, h.2.2 0 (le_refl 0)⟩


section ActionGradientShape

lemma setSlice_length (dst : List ℝ) (a b : ℕ) (src : List ℝ) :
    (setSlice dst a b src).length = dst.length := by
  simp [setSlice]

lemma setSlice_getD_zero (dst src : List ℝ) (a b : ℕ) (ha : 1 ≤ a) :
    (setSlice dst a b src).getD 0 0 = dst.getD 0 0 := by
  cases dst with
  | nil => simp [setSlice]
  | cons xh xt =>
    rw [setSlice, List.length_cons, List.range_succ_eq_map]
    simp only [List.zipWith_cons_cons, List.getD_cons_zero]
    rw [if_neg (by omega)]

lemma set_getD_zero_ne (l : List ℝ) (i : ℕ) (v : ℝ) (hi : i ≠ 0) :
    (l.set i v).getD 0 0 = l.getD 0 0 := by
  rw [List.getD_eq_getElem?_getD, List.getElem?_set_ne (fun h => hi h),
    ← List.getD_eq_getElem?_getD]

lemma set_getD_zero_self (l : List ℝ) (v : ℝ) (h : 0 < l.length) :
    (l.set 0 v).getD 0 0 = v := by
  rw [List.getD_eq_getElem?_getD, List.getElem?_set_self h]
  rfl

lemma actionGradientReal_length (B_many : List (ℝ × ℝ × ℝ) → List (ℝ × ℝ × ℝ))
    (nlist xx : List ℝ) (pp qq a : ℝ) :
    (actionGradientReal B_many nlist xx pp qq a).length = xx.length := by
  simp [actionGradientReal, setSlice_length]

lemma actionGradientFourier_length (B_many : List (ℝ × ℝ × ℝ) → List (ℝ × ℝ × ℝ))
    (nlist zeta : List ℝ) (cnzq snzq : List (List ℝ)) (xx : List ℝ) (pp qq a : ℝ) :
    (actionGradientFourier B_many nlist zeta cnzq snzq xx pp qq a).length = xx.length := by
  simp [actionGradientFourier, setSlice_length]

lemma actionGradientReal_getD_zero (B_many : List (ℝ × ℝ × ℝ) → List (ℝ × ℝ × ℝ))
    (nlist xx : List ℝ) (pp qq a : ℝ) (hxx : 0 < xx.length) :
    (actionGradientReal B_many nlist xx pp qq a).getD 0 0 =
      (unpack_dof xx).2.2.2.2.getD 0 0 - a := by
  simp only [actionGradientReal]
  rw [setSlice_getD_zero _ _ _ _ (by omega), setSlice_getD_zero _ _ _ _ (by omega),
    set_getD_zero_self _ _ (by simpa using hxx)]

lemma actionGradientFourier_getD_zero (B_many : List (ℝ × ℝ × ℝ) → List (ℝ × ℝ × ℝ))
    (nlist zeta : List ℝ) (cnzq snzq : List (List ℝ)) (xx : List ℝ) (pp qq a : ℝ)
    (hxx : 0 < xx.length) :
    (actionGradientFourier B_many nlist zeta cnzq snzq xx pp qq a).getD 0 0 =
      (unpack_dof xx).2.2.2.2.getD 0 0 - a := by
  simp only [actionGradientFourier]
  rw [setSlice_getD_zero _ _ _ _ (by omega), set_getD_zero_ne _ _ _ (by omega),
    setSlice_getD_zero _ _ _ _ (by omega), setSlice_getD_zero _ _ _ _ (by omega),
    setSlice_getD_zero _ _ _ _ (by omega),
    set_getD_zero_self _ _ (by simpa using hxx)]

end ActionGradientShape

/-- C7: `action_gradient` raises a `ValueError` (with the source message,
trailing blank included) exactly when its mode argument is neither `"real"`
nor `"fourier"`; for the two recognized modes it returns a residual vector
without raising. -/
theorem action_gradient_mode_check (B_many : List (ℝ × ℝ × ℝ) → List (ℝ × ℝ × ℝ))
    (nlist zeta : List ℝ) (cnzq snzq : List (List ℝ)) (xx : List ℝ)
    (pp qq a : ℝ) (mode : String) :
    (mode ≠ "real" ∧ mode ≠ "fourier" →
      action_gradient B_many nlist zeta cnzq snzq xx pp qq a mode =
        Except.error (PyErr.valueError "space should be \x27real\x27 or \x27fourier\x27 ")) ∧
    (mode = "real" ∨ mode = "fourier" →
      ∃ ff : List ℝ, action_gradient B_many nlist zeta cnzq snzq xx pp qq a mode =
        Except.ok ff) := by
  constructor
  · rintro ⟨h1, h2⟩
    rw [action_gradient, if_neg h2, if_neg h1]
  · rintro (h | h) <;> subst h
    · exact ⟨_, by rw [action_gradient, if_neg (by decide), if_pos rfl]⟩
    · exact ⟨_, by rw [action_gradient, if_pos rfl]⟩

/-- Concrete instance of the mode check: an unrecognized mode string raises
the `ValueError`, and mode `"real"` returns a residual. -/
theorem action_gradient_mode_check_witness :
    (action_gradient (fun _ => []) [] [] [] [] [] 1 2 0 "cartesian" =
      Except.error (PyErr.valueError "space should be \x27real\x27 or \x27fourier\x27 ")) ∧
    (∃ ff : List ℝ, action_gradient (fun _ => []) [] [] [] [] [] 1 2 0 "real" =
      Except.ok ff) :=
  ⟨(action_gradient_mode_check (fun _ => []) [] [] [] [] [] 1 2 0 "cartesian").1
      ⟨by decide, by decide⟩,
   (action_gradient_mode_check (fun _ => []) [] [] [] [] [] 1 2 0 "real").2 (Or.inl rfl)⟩

/-- C8: for every nonempty DOF vector `xx` (every valid DOF vector has length
`4 qN + 1 ≥ 1`) and each recognized mode, `action_gradient` returns a
residual of exactly the length of `xx` whose first entry is `tcn[0] - a`,
with `tcn` the angular-cosine block decoded from `xx` by `_unpack_dof`. -/
theorem action_gradient_residual_shape (B_many : List (ℝ × ℝ × ℝ) → List (ℝ × ℝ × ℝ))
    (nlist zeta : List ℝ) (cnzq snzq : List (List ℝ)) (xx : List ℝ)
    (pp qq a : ℝ) (mode : String) (hxx : 0 < xx.length)
    (hmode : mode = "real" ∨ mode = "fourier") :
    ∃ ff : List ℝ,
      action_gradient B_many nlist zeta cnzq snzq xx pp qq a mode = Except.ok ff ∧
      ff.length = xx.length ∧
      ff.getD 0 0 = (unpack_dof xx).2.2.2.2.getD 0 0 - a := by
  rcases hmode with h | h <;> subst h
  · refine ⟨actionGradientReal B_many nlist xx pp qq a, ?_, ?_, ?_⟩
    · rw [action_gradient, if_neg (by decide), if_pos rfl]
    · exact actionGradientReal_length B_many nlist xx pp qq a
    · exact actionGradientReal_getD_zero B_many nlist xx pp qq a hxx
  · refine ⟨actionGradientFourier B_many nlist zeta cnzq snzq xx pp qq a, ?_, ?_, ?_⟩
    · rw [action_gradient, if_pos rfl]
    · exact actionGradientFourier_length B_many nlist zeta cnzq snzq xx pp qq a
    · exact actionGradientFourier_getD_zero B_many nlist zeta cnzq snzq xx pp qq a hxx

/-- Concrete instance of the residual shape at the valid DOF vector
`[1, 2, 3, 4, 5]` (`qN = 1`), mode `"real"`. -/
theorem action_gradient_residual_shape_witness :
    0 < ([(1 : ℝ), 2, 3, 4, 5]).length ∧
    ∃ ff : List ℝ,
      action_gradient (fun _ => []) [] [] [] [] [1, 2, 3, 4, 5] 1 2 0 "real" =
        Except.ok ff ∧
      ff.length = ([(1 : ℝ), 2, 3, 4, 5]).length ∧
      ff.getD 0 0 = (unpack_dof [1, 2, 3, 4, 5]).2.2.2.2.getD 0 0 - 0 :=
  ⟨by norm_num,
   action_gradient_residual_shape (fun _ => []) [] [] [] [] [1, 2, 3, 4, 5] 1 2 0 "real"
     (by norm_num) (Or.inl rfl)⟩


section StraightenLoopControl

lemma straightenLoop_exhaust (step : (ℝ × List (List ℝ) × List (List ℝ)) →
      ℝ × List (List ℝ) × List (List ℝ)) (tol : ℝ) :
    ∀ (n : ℕ) (st : ℝ × List (List ℝ) × List (List ℝ)),
    (∀ j, j < n → ¬ straightenConvErr step (step^[j] st) < tol) →
    straightenLoop step tol n st = step^[n] st := by
  intro n
  induction n with
  | zero => intro st _; rfl
  | succ n ih =>
    intro st h
    simp only [straightenLoop]
    rw [if_neg (by simpa using h 0 (by omega))]
    have hrest : ∀ j, j < n → ¬ straightenConvErr step (step^[j] (step st)) < tol := by
      intro j hj
      have hx := h (j + 1) (by omega)
      rwa [Function.iterate_succ_apply] at hx
    rw [ih (step st) hrest, ← Function.iterate_succ_apply]

lemma straightenLoop_early_stop (step : (ℝ × List (List ℝ) × List (List ℝ)) →
      ℝ × List (List ℝ) × List (List ℝ)) (tol : ℝ) :
    ∀ (n j0 : ℕ) (st : ℝ × List (List ℝ) × List (List ℝ)), j0 < n →
    straightenConvErr step (step^[j0] st) < tol →
    (∀ j, j < j0 → ¬ straightenConvErr step (step^[j] st) < tol) →
    straightenLoop step tol n st = step^[j0 + 1] st := by
  intro n
  induction n with
  | zero => intro j0 st h; omega
  | succ n ih =>
    intro j0 st hj0 hconv hmin
    cases j0 with
    | zero =>
      simp only [Function.iterate_zero_apply] at hconv
      simp only [straightenLoop]
      rw [if_pos hconv]
      simp [Function.iterate_one]
    | succ j =>
      have hne : ¬ straightenConvErr step st < tol := by
        simpa using hmin 0 (by omega)
      simp only [straightenLoop]
      rw [if_neg hne]
      have hconv2 : straightenConvErr step (step^[j] (step st)) < tol := by
        rwa [← Function.iterate_succ_apply]
      have hmin2 : ∀ i, i < j → ¬ straightenConvErr step (step^[i] (step st)) < tol := by
        intro i hi
        have hx := hmin (i + 1) (by omega)
        rwa [Function.iterate_succ_apply] at hx
      rw [ih j (step st) (by omega) hconv2 hmin2, ← Function.iterate_succ_apply]

lemma straightenLoop_inv (step : (ℝ × List (List ℝ) × List (List ℝ)) →
      ℝ × List (List ℝ) × List (List ℝ)) (tol : ℝ)
    (P : (ℝ × List (List ℝ) × List (List ℝ)) → Prop) (hP : ∀ st, P (step st)) :
    ∀ (n : ℕ) (st : ℝ × List (List ℝ) × List (List ℝ)),
      P st → P (straightenLoop step tol n st) := by
  intro n
  induction n with
  | zero => intro st h; exact h
  | succ n ih =>
    intro st h
    simp only [straightenLoop]
    by_cases hc : straightenConvErr step st < tol
    · rw [if_pos hc]; exact hP st
    · rw [if_neg hc]; exact ih (step st) (hP st)

lemma straightenStep_shapes (B_many : List (ℝ × ℝ × ℝ) → List (ℝ × ℝ × ℝ))
    (MM : ℕ) (Nfp rho : ℝ) (mpol ntor : ℕ)
    (st : ℝ × List (List ℝ) × List (List ℝ)) :
    ((straightenStep B_many MM Nfp rho mpol ntor st).2.1.length = mpol + 1) ∧
    (∀ row ∈ (straightenStep B_many MM Nfp rho mpol ntor st).2.1,
      row.length = 2 * ntor + 1) ∧
    ((straightenStep B_many MM Nfp rho mpol ntor st).2.2.length = mpol + 1) ∧
    (∀ row ∈ (straightenStep B_many MM Nfp rho mpol ntor st).2.2,
      row.length = 2 * ntor + 1) := by
  refine ⟨?_, ?_, ?_, ?_⟩
  · simp [straightenStep, straightenNewCn]
  · intro row hrow
    simp only [straightenStep, straightenNewCn, List.mem_map] at hrow
    obtain ⟨m, _, rfl⟩ := hrow
    simp
  · simp [straightenStep, straightenNewSn]
  · intro row hrow
    simp only [straightenStep, straightenNewSn, List.mem_map] at hrow
    obtain ⟨m, _, rfl⟩ := hrow
    simp

end StraightenLoopControl

/-- C9: `straighten_boundary` has no failure path.  (1) Its result is exactly
the state of the fixed-point loop started from `(iota, lambda) = 0` (with the
sine/cosine blocks swapped into the source's return order) — no exception is
possible.  (2) If no round brings the maximum of the absolute changes in
`iota` and in the two `lambda` spectra below `tol`, the loop performs exactly
`niter` rounds and returns the last computed state.  (3) If round `j0 < niter`
is the first whose changes all fall below `tol`, the loop stops right after it
and returns that round's freshly computed state. -/
theorem straighten_boundary_no_raise_loop_control
    (B_many : List (ℝ × ℝ × ℝ) → List (ℝ × ℝ × ℝ)) (MM : ℕ) (Nfp : ℝ)
    (pqMpol pqNtor : ℕ) (rho tol : ℝ) (niter : ℕ) :
    (straighten_boundary B_many MM Nfp pqMpol pqNtor rho tol niter =
      ((straightenLoop (straightenStep B_many MM Nfp rho pqNtor pqNtor) tol niter
          (0, List.replicate (pqNtor + 1) (List.replicate (2 * pqNtor + 1) 0),
            List.replicate (pqNtor + 1) (List.replicate (2 * pqNtor + 1) 0))).1,
       (straightenLoop (straightenStep B_many MM Nfp rho pqNtor pqNtor) tol niter
          (0, List.replicate (pqNtor + 1) (List.replicate (2 * pqNtor + 1) 0),
            List.replicate (pqNtor + 1) (List.replicate (2 * pqNtor + 1) 0))).2.2,
       (straightenLoop (straightenStep B_many MM Nfp rho pqNtor pqNtor) tol niter
          (0, List.replicate (pqNtor + 1) (List.replicate (2 * pqNtor + 1) 0),
            List.replicate (pqNtor + 1) (List.replicate (2 * pqNtor + 1) 0))).2.1)) ∧
    ((∀ j, j < niter → ¬ straightenConvErr (straightenStep B_many MM Nfp rho pqNtor pqNtor)
        ((straightenStep B_many MM Nfp rho pqNtor pqNtor)^[j]
          (0, List.replicate (pqNtor + 1) (List.replicate (2 * pqNtor + 1) 0),
            List.replicate (pqNtor + 1) (List.replicate (2 * pqNtor + 1) 0))) < tol) →
      straightenLoop (straightenStep B_many MM Nfp rho pqNtor pqNtor) tol niter
          (0, List.replicate (pqNtor + 1) (List.replicate (2 * pqNtor + 1) 0),
            List.replicate (pqNtor + 1) (List.replicate (2 * pqNtor + 1) 0)) =
        (straightenStep B_many MM Nfp rho pqNtor pqNtor)^[niter]
          (0, List.replicate (pqNtor + 1) (List.replicate (2 * pqNtor + 1) 0),
            List.replicate (pqNtor + 1) (List.replicate (2 * pqNtor + 1) 0))) ∧
    (∀ j0, j0 < niter →
      straightenConvErr (straightenStep B_many MM Nfp rho pqNtor pqNtor)
        ((straightenStep B_many MM Nfp rho pqNtor pqNtor)^[j0]
          (0, List.replicate (pqNtor + 1) (List.replicate (2 * pqNtor + 1) 0),
            List.replicate (pqNtor + 1) (List.replicate (2 * pqNtor + 1) 0))) < tol →
      (∀ j, j < j0 → ¬ straightenConvErr (straightenStep B_many MM Nfp rho pqNtor pqNtor)
        ((straightenStep B_many MM Nfp rho pqNtor pqNtor)^[j]
          (0, List.replicate (pqNtor + 1) (List.replicate (2 * pqNtor + 1) 0),
            List.replicate (pqNtor + 1) (List.replicate (2 * pqNtor + 1) 0))) < tol) →
      straightenLoop (straightenStep B_many MM Nfp rho pqNtor pqNtor) tol niter
          (0, List.replicate (pqNtor + 1) (List.replicate (2 * pqNtor + 1) 0),
            List.replicate (pqNtor + 1) (List.replicate (2 * pqNtor + 1) 0)) =
        (straightenStep B_many MM Nfp rho pqNtor pqNtor)^[j0 + 1]
          (0, List.replicate (pqNtor + 1) (List.replicate (2 * pqNtor + 1) 0),
            List.replicate (pqNtor + 1) (List.replicate (2 * pqNtor + 1) 0))) := by
  refine ⟨rfl, ?_, ?_⟩
  · exact straightenLoop_exhaust _ tol niter _
  · intro j0 h1 h2 h3
    exact straightenLoop_early_stop _ tol niter j0 _ h1 h2 h3

/-- Concrete instance of the loop control: with a zero round budget the loop
returns its initial state unchanged, and the entry point repackages it. -/
theorem straighten_boundary_no_raise_loop_control_witness :
    (straighten_boundary (fun _ => []) 1 1 7 1 1 1 0 =
      ((straightenLoop (straightenStep (fun _ => []) 1 1 1 1 1) 1 0
          (0, List.replicate (1 + 1) (List.replicate (2 * 1 + 1) 0),
            List.replicate (1 + 1) (List.replicate (2 * 1 + 1) 0))).1,
       (straightenLoop (straightenStep (fun _ => []) 1 1 1 1 1) 1 0
          (0, List.replicate (1 + 1) (List.replicate (2 * 1 + 1) 0),
            List.replicate (1 + 1) (List.replicate (2 * 1 + 1) 0))).2.2,
       (straightenLoop (straightenStep (fun _ => []) 1 1 1 1 1) 1 0
          (0, List.replicate (1 + 1) (List.replicate (2 * 1 + 1) 0),
            List.replicate (1 + 1) (List.replicate (2 * 1 + 1) 0))).2.1)) ∧
    straightenLoop (straightenStep (fun _ => []) 1 1 1 1 1) 1 0
        (0, List.replicate (1 + 1) (List.replicate (2 * 1 + 1) 0),
          List.replicate (1 + 1) (List.replicate (2 * 1 + 1) 0)) =
      (straightenStep (fun _ => []) 1 1 1 1 1)^[0]
        (0, List.replicate (1 + 1) (List.replicate (2 * 1 + 1) 0),
          List.replicate (1 + 1) (List.replicate (2 * 1 + 1) 0)) :=
  have h := straighten_boundary_no_raise_loop_control (fun _ => []) 1 1 7 1 1 1 0
  ⟨h.1, h.2.1 (fun j hj => absurd hj (Nat.not_lt_zero j))⟩

/-- C10: for every configuration the two `lambda` spectra returned by
`straighten_boundary` have shape `(pqNtor + 1) × (2*pqNtor + 1)` — both
truncations are taken from `pqNtor`, because qfm.py 81 (`ntor = mpol =
self._pqNtor`) overwrites the local `mpol = self._pqMpol` — and consequently
the result does not depend on `pqMpol` at all. -/
theorem straighten_lambda_shapes_pqMpol_ignored
    (B_many : List (ℝ × ℝ × ℝ) → List (ℝ × ℝ × ℝ)) (MM : ℕ) (Nfp : ℝ)
    (pqMpol pqMpol2 pqNtor : ℕ) (rho tol : ℝ) (niter : ℕ) :
    ((straighten_boundary B_many MM Nfp pqMpol pqNtor rho tol niter).2.1.length =
      pqNtor + 1) ∧
    (∀ row ∈ (straighten_boundary B_many MM Nfp pqMpol pqNtor rho tol niter).2.1,
      row.length = 2 * pqNtor + 1) ∧
    ((straighten_boundary B_many MM Nfp pqMpol pqNtor rho tol niter).2.2.length =
      pqNtor + 1) ∧
    (∀ row ∈ (straighten_boundary B_many MM Nfp pqMpol pqNtor rho tol niter).2.2,
      row.length = 2 * pqNtor + 1) ∧
    straighten_boundary B_many MM Nfp pqMpol pqNtor rho tol niter =
      straighten_boundary B_many MM Nfp pqMpol2 pqNtor rho tol niter := by
  have hinv := straightenLoop_inv (straightenStep B_many MM Nfp rho pqNtor pqNtor) tol
    (fun st => st.2.1.length = pqNtor + 1 ∧
      (∀ row ∈ st.2.1, row.length = 2 * pqNtor + 1) ∧
      st.2.2.length = pqNtor + 1 ∧
      (∀ row ∈ st.2.2, row.length = 2 * pqNtor + 1))
    (fun st => straightenStep_shapes B_many MM Nfp rho pqNtor pqNtor st)
    niter
    (0, List.replicate (pqNtor + 1) (List.replicate (2 * pqNtor + 1) 0),
      List.replicate (pqNtor + 1) (List.replicate (2 * pqNtor + 1) 0))
    ⟨by simp, fun row hrow => by rw [List.eq_of_mem_replicate hrow]; simp,
      by simp, fun row hrow => by rw [List.eq_of_mem_replicate hrow]; simp⟩
  obtain ⟨h1, h2, h3, h4⟩ := hinv
  exact ⟨h3, h4, h1, h2, rfl⟩

/-- Concrete instance of the shape and `pqMpol`-independence facts at
`pqNtor = 1`, with two different `pqMpol` values. -/
theorem straighten_lambda_shapes_pqMpol_ignored_witness :
    (straighten_boundary (fun _ => []) 1 1 7 1 1 1 0).2.1.length = 1 + 1 ∧
    (List.replicate (2 * 1 + 1) (0 : ℝ)).length = 2 * 1 + 1 ∧
    straighten_boundary (fun _ => []) 1 1 7 1 1 1 0 =
      straighten_boundary (fun _ => []) 1 1 3 1 1 1 0 :=
  have h := straighten_lambda_shapes_pqMpol_ignored (fun _ => []) 1 1 7 3 1 1 1 0
  ⟨h.1, h.2.1 (List.replicate (2 * 1 + 1) (0 : ℝ))
      (List.mem_replicate.mpr ⟨by omega, rfl⟩), h.2.2.2.2⟩
